import Mathlib

/-!
# picasso-tools: the vectorisation pipeline of `generate-jcode`

A shallow embedding of `generate-jcode/path.go` and `generate-jcode/image.go`
and the properties of the pipeline proved over it.

Conventions of the embedding.

* Go `int` coordinates are `Int`.  In path.go the differences of point
  coordinates wrap at 64 bits (`wrap64`) and the distances are `float64`
  values rounded as the machine rounds them (`dist`).  In image.go the
  coordinates are those of the pixels of a buffer held in memory, and their
  sums with small constants stay far from the 64-bit range.
* A `uint8` pixel value is a `Nat`; where the source converts with `uint8(..)`
  the embedding reduces modulo `256`.  `uint32` arithmetic is reduced modulo
  `2 ^ 32`.
* A Go loop over a slice is a structural recursion (or a fold) over the list;
  a `for cond { .. }` loop takes a fuel argument, and a lemma shows that the
  fuel handed over by the caller is never exhausted.
-/

namespace Picasso

/-! ## Data model -/

/-- The type `Point` of path.go: `type Point struct{ X, Y int }`. -/
structure Point where
  X : Int
  Y : Int
deriving DecidableEq

instance : Inhabited Point := ⟨⟨0, 0⟩⟩

/-- The type `image.Rectangle`: the pixels `(x, y)` with `minX ≤ x < maxX` and
`minY ≤ y < maxY`. -/
structure Rectangle where
  minX : Int
  minY : Int
  maxX : Int
  maxY : Int
deriving DecidableEq

/-- The method `Rectangle.Dx`: the width. -/
def Rectangle.Dx (r : Rectangle) : Int := r.maxX - r.minX

/-- The method `Rectangle.Dy`: the height. -/
def Rectangle.Dy (r : Rectangle) : Int := r.maxY - r.minY

/-- The test `Point{x, y}.In(r)` used by `GrayAt` and `SetGray`. -/
def Rectangle.contains (r : Rectangle) (x y : Int) : Bool :=
  decide (r.minX ≤ x) && decide (x < r.maxX) && decide (r.minY ≤ y) && decide (y < r.maxY)

/-- The type `image.Gray`: a pixel buffer, its stride and its bounds. -/
structure Gray where
  Pix : List Nat
  Stride : Int
  Rect : Rectangle
deriving DecidableEq

/-- The method `Gray.PixOffset`: `(y-Rect.Min.Y)*Stride + (x-Rect.Min.X)`. -/
def Gray.PixOffset (g : Gray) (x y : Int) : Nat :=
  ((y - g.Rect.minY) * g.Stride + (x - g.Rect.minX)).toNat

/-- The value `g.GrayAt(x, y).Y`: the stored pixel inside the bounds, the zero
colour outside. -/
def Gray.GrayAt (g : Gray) (x y : Int) : Nat :=
  if g.Rect.contains x y then g.Pix.getD (g.PixOffset x y) 0 else 0

/-- The method `g.SetGray(x, y, color.Gray{v})`: a store inside the bounds, no
effect outside. -/
def Gray.SetGray (g : Gray) (x y : Int) (v : Nat) : Gray :=
  if g.Rect.contains x y then { g with Pix := g.Pix.set (g.PixOffset x y) v } else g

/-- The constructor `image.NewGray(r)`: a zeroed buffer of `Dx*Dy` pixels with
stride `Dx`. -/
def NewGray (r : Rectangle) : Gray :=
  { Pix := List.replicate (r.Dx * r.Dy).toNat 0, Stride := r.Dx, Rect := r }

/-- The integers `lo, lo+1, .., hi-1` in ascending order: the values taken by
the variable of `for v := lo; v < hi; v++`. -/
def intRange (lo hi : Int) : List Int :=
  (List.range (hi - lo).toNat).map (fun (i : Nat) => lo + (i : Int))

/-- The pairs `(x, y)` visited by `for y := y0; y < y1; y++ { for x := x0; x < x1; x++ {..} }`,
in the order of the visit (row-major). -/
def rowMajor (x0 x1 y0 y1 : Int) : List (Int × Int) :=
  (intRange y0 y1).flatMap (fun y => (intRange x0 x1).map (fun x => (x, y)))

/-! ## path.go -/

/-- The function `ExtractWhitePixels`: scan the bounds row by row and append
the coordinates of every pixel above 128. -/
def ExtractWhitePixels (img : Gray) : List Point :=
  (rowMajor img.Rect.minX img.Rect.maxX img.Rect.minY img.Rect.maxY).foldl
    (fun points xy => if img.GrayAt xy.1 xy.2 > 128 then points ++ [⟨xy.1, xy.2⟩] else points) []

/-! ### Machine arithmetic of path.go

The coordinates of a `Point` are Go `int` values, 64 bits wide on the
platforms the tools are built for, so a difference of two coordinates wraps.
A `float64` that holds an integer is its magnitude as a `Nat`; every result is
rounded to 53 significant bits, to the nearest value, ties to even.  A product
and a sum are rounded one after the other (no fused multiply-add). -/

/-- The result of an `int` operation whose exact result is `x`: reduced to the
range `-2^63 .. 2^63 - 1`. -/
def wrap64 (x : Int) : Int :=
  (x + 2 ^ 63) % 2 ^ 64 - 2 ^ 63

/-- The function `log2` below, with a bound on the number of halvings. -/
def log2Aux : Nat → Nat → Nat
  | 0, _ => 0
  | fuel + 1, n => if n ≥ 2 then log2Aux fuel (n / 2) + 1 else 0

/-- The position of the leading bit of `n`: the largest `k` with `2 ^ k ≤ n`,
and `0` for `n = 0`.  The number of halvings never reaches `n`. -/
def log2 (n : Nat) : Nat :=
  log2Aux n n

/-- Rounding to 53 significant bits, to nearest, ties to even, of the number
`s` when `sticky` is `false` and of a number strictly between `s` and `s + 1`
when it is `true`.  A number below `2 ^ 53` is kept; the square root is the
only caller with `sticky`, and it passes `s ≥ 2 ^ 53`. -/
def round53 (s : Nat) (sticky : Bool) : Nat :=
  let shift := log2 s - 52
  if shift = 0 then s
  else
    let q := s / 2 ^ shift
    let r := s % 2 ^ shift
    let half := 2 ^ (shift - 1)
    if r > half ∨ (r = half ∧ (sticky = true ∨ q % 2 = 1)) then (q + 1) * 2 ^ shift
    else q * 2 ^ shift

/-- The bits `k-1, .., 0` of the integer square root of `n`, added to `r`. -/
def isqrtAux (n : Nat) : Nat → Nat → Nat
  | 0, r => r
  | k + 1, r =>
    if (r + 2 ^ k) * (r + 2 ^ k) ≤ n then isqrtAux n k (r + 2 ^ k) else isqrtAux n k r

/-- The integer square root: the largest `r` with `r * r ≤ n`. -/
def isqrt (n : Nat) : Nat :=
  isqrtAux n (log2 n / 2 + 1) 0

/-- The value `math.Abs(float64(d))` for an `int` `d`. -/
def floatAbs (d : Int) : Nat :=
  round53 d.natAbs false

/-- The `float64` product of two integer-valued magnitudes. -/
def floatMul (a b : Nat) : Nat :=
  round53 (a * b) false

/-- The `float64` sum of two integer-valued magnitudes. -/
def floatAdd (a b : Nat) : Nat :=
  round53 (a + b) false

/-- The value `math.Sqrt(x)` for an integer-valued `float64` `x`, in units of
`2 ^ -53`: the correctly rounded root.  For `x ≥ 1` the integer root of
`x * 2 ^ 106` is at least `2 ^ 53`. -/
def floatSqrt (x : Nat) : Nat :=
  let s := isqrt (x * 2 ^ 106)
  round53 s (decide (s * s ≠ x * 2 ^ 106))

/-- The function `nextToEachOther`: true if the pixels touch or are diagonal.
The differences are `int` subtractions, which wrap. -/
def nextToEachOther (pt1 pt2 : Point) : Bool :=
  if floatAbs (wrap64 (pt1.X - pt2.X)) > 1 then false
  else if floatAbs (wrap64 (pt1.Y - pt2.Y)) > 1 then false
  else true

/-- The value `dist` of `BuildPaths` for the point `p` and the current point,
in units of `2 ^ -53`: `dx := float64(p.X - cur.X)`, `dy` likewise, and
`math.Sqrt(dx*dx + dy*dy)`.  The sign of `dx` does not reach the product. -/
def dist (p cur : Point) : Nat :=
  let dx := floatAbs (wrap64 (p.X - cur.X))
  let dy := floatAbs (wrap64 (p.Y - cur.Y))
  floatSqrt (floatAdd (floatMul dx dx) (floatMul dy dy))

/-- The inner loop `for i, p := range points` of `BuildPaths`, started at index
`i`.  The pair `(bestIdx, bestDist)` is `none` while it is still
`(-1, math.MaxFloat64)`, a value every distance is below. -/
def scanNearest (cur : Point) (visited : List Bool) :
    List Point → Nat → Option (Nat × Nat) → Option (Nat × Nat)
  | [], _, best => best
  | p :: ps, i, best =>
    if visited.getD i false then scanNearest cur visited ps (i + 1) best
    else
      let d := dist p cur
      match best with
      | none => scanNearest cur visited ps (i + 1) (some (i, d))
      | some (bestIdx, bestDist) =>
        if d < bestDist then scanNearest cur visited ps (i + 1) (some (i, d))
        else scanNearest cur visited ps (i + 1) (some (bestIdx, bestDist))

/-- The value of `bestIdx` after the inner loop; `none` stands for `-1`. -/
def nearest (points : List Point) (visited : List Bool) (current : Nat) : Option Nat :=
  (scanNearest (points.getD current default) visited points 0 none).map Prod.fst

/-- The variables of the traversal loop of `BuildPaths`. -/
structure PathState where
  path : List Point
  jumps : List Nat
  visited : List Bool
  current : Nat
deriving DecidableEq

/-- The loop `for len(path) < len(points) { .. }` of `BuildPaths`, run for at
most `fuel` iterations. -/
def buildLoop (points : List Point) : Nat → PathState → PathState
  | 0, s => s
  | fuel + 1, s =>
    if s.path.length < points.length then
      match nearest points s.visited s.current with
      | none => s
      | some bestIdx =>
        let visited := s.visited.set bestIdx true
        let path := s.path ++ [points.getD bestIdx default]
        let jumps :=
          if path.length > 1 then
            if !nextToEachOther (path.getD (path.length - 1) default)
                (path.getD (path.length - 2) default) then
              s.jumps ++ [path.length - 1]
            else s.jumps
          else s.jumps
        buildLoop points fuel ⟨path, jumps, visited, bestIdx⟩
    else s

/-- The final loop of `BuildPaths`: `path[lastPathStart:nextPathStart]` for
every `nextPathStart` of `jumps`. -/
def slicePaths (path : List Point) : Nat → List Nat → List (List Point)
  | _, [] => []
  | lastPathStart, nextPathStart :: rest =>
    ((path.take nextPathStart).drop lastPathStart) :: slicePaths path nextPathStart rest

/-- The state of `BuildPaths` on entry to the traversal loop. -/
def initState (points : List Point) : PathState :=
  { path := [points.getD 0 default]
    jumps := []
    visited := (List.replicate points.length false).set 0 true
    current := 0 }

/-- The function `BuildPaths`: greedy nearest-neighbour traversal, cut into
strokes at the jumps.  The traversal loop appends one point per iteration to a
path that starts with one point, so `len(points)` iterations are never all
used (`buildLoop_fuel`). -/
def BuildPaths (points : List Point) : List (List Point) :=
  if points.length = 0 then []
  else
    let s := buildLoop points points.length (initState points)
    slicePaths s.path 0 (s.jumps ++ [s.path.length])

/-! ## image.go -/

/-- The four values returned by `color.Color.RGBA()`, each a `uint32`. -/
structure RGBA where
  r : Nat
  g : Nat
  b : Nat
  a : Nat
deriving DecidableEq

/-- The interface `image.Image` as the binarizers use it: `Bounds()` and
`At(x, y).RGBA()`. -/
structure Image where
  Bounds : Rectangle
  At : Int → Int → RGBA

/-- The expression `uint8((r*299 + g*587 + b*114 + 500) / 1000 >> 8)` of
`Threshold` and `EdgeDetection`: `uint32` arithmetic, then the low byte.  In
Go `/` and `>>` have the same precedence and associate to the left, so the
quotient by 1000 is shifted. -/
def grayVal (c : RGBA) : Nat :=
  ((((c.r * 299 + c.g * 587 + c.b * 114 + 500) % 2 ^ 32) / 1000) >>> 8) % 256

/-- The function `Threshold`.  The value `255 - grayVal` is a `uint8`
subtraction that cannot wrap, `grayVal` being a byte. -/
def Threshold (img : Image) (t : Nat) (invert : Bool) : Gray :=
  let bounds := img.Bounds
  (rowMajor bounds.minX bounds.maxX bounds.minY bounds.maxY).foldl
    (fun gray xy =>
      let v := grayVal (img.At xy.1 xy.2)
      let v := if invert then 255 - v else v
      if v > t then gray.SetGray xy.1 xy.2 255 else gray.SetGray xy.1 xy.2 0)
    (NewGray bounds)

/-- The function `boolToInt`. -/
def boolToInt (b : Bool) : Int := if b then 1 else 0

/-- The body of the scan of `GuoHallThinning` at `(x, y)` for sub-iteration
`step`: `true` when the pixel is appended to `toRemove`, `false` on every
`continue`. -/
def removable (out : Gray) (step : Nat) (x y : Int) : Bool :=
  let p1 := out.GrayAt x y
  if p1 = 0 then false
  else
    let p2 := out.GrayAt x (y - 1)
    let p3 := out.GrayAt (x + 1) (y - 1)
    let p4 := out.GrayAt (x + 1) y
    let p5 := out.GrayAt (x + 1) (y + 1)
    let p6 := out.GrayAt x (y + 1)
    let p7 := out.GrayAt (x - 1) (y + 1)
    let p8 := out.GrayAt (x - 1) y
    let p9 := out.GrayAt (x - 1) (y - 1)
    let bVals : List Int :=
      [boolToInt (p1 > 0), boolToInt (p2 > 0), boolToInt (p3 > 0), boolToInt (p4 > 0),
        boolToInt (p5 > 0), boolToInt (p6 > 0), boolToInt (p7 > 0), boolToInt (p8 > 0),
        boolToInt (p9 > 0)]
    let bv := fun i : Nat => bVals.getD i 0
    let n := bv 1 + bv 2 + bv 3 + bv 4 + bv 5 + bv 6 + bv 7 + bv 8
    if n < 2 ∨ n > 6 then false
    else
      let A := (List.range' 1 8).foldl
        (fun A i => if bv (i % 8 + 1) = 1 ∧ bv i = 0 then A + 1 else A) (0 : Int)
      if A ≠ 1 then false
      else if step = 0 then
        if bv 1 * bv 3 * bv 5 ≠ 0 then false
        else if bv 3 * bv 5 * bv 7 ≠ 0 then false
        else true
      else
        if bv 1 * bv 3 * bv 7 ≠ 0 then false
        else if bv 1 * bv 5 * bv 7 ≠ 0 then false
        else true

/-- The list `toRemove` after the scan `for y := 1; y < h-1; y++ { for x := 1; x < w-1; x++ {..} }`
of one sub-iteration. -/
def scanRemovable (w h : Int) (step : Nat) (out : Gray) : List (Int × Int) :=
  (rowMajor 1 (w - 1) 1 (h - 1)).foldl
    (fun toRemove xy => if removable out step xy.1 xy.2 then toRemove ++ [xy] else toRemove) []

/-- One sub-iteration of `GuoHallThinning`: the scan, then the removals.  The
second component tells whether the sub-iteration sets `changed`. -/
def subIteration (w h : Int) (step : Nat) (out : Gray) : Gray × Bool :=
  let toRemove := scanRemovable w h step out
  if toRemove.length > 0 then
    (toRemove.foldl (fun o xy => o.SetGray xy.1 xy.2 0) out, true)
  else (out, false)

/-- One pass of `GuoHallThinning`: `changed = false`, then the sub-iterations
`step = 0` and `step = 1`.  The second component is `changed` after the pass. -/
def thinPass (w h : Int) (out : Gray) : Gray × Bool :=
  let r0 := subIteration w h 0 out
  let r1 := subIteration w h 1 r0.1
  (r1.1, r0.2 || r1.2)

/-- The loop `for changed { .. }` of `GuoHallThinning`, entered with
`changed = true` and run for at most `fuel` passes: the final grid and the
number of passes run, or `none` when the fuel does not suffice. -/
def thinLoop (w h : Int) : Nat → Gray → Option (Gray × Nat)
  | 0, _ => none
  | fuel + 1, out =>
    let r := thinPass w h out
    if r.2 then (thinLoop w h fuel r.1).map (fun p => (p.1, p.2 + 1))
    else some (r.1, 1)

/-- The first loop of `GuoHallThinning`: the copy of the input as a 0/255
grid. -/
def binaryCopy (img : Gray) : Gray :=
  let b := img.Rect
  (rowMajor b.minX b.maxX b.minY b.maxY).foldl
    (fun out xy =>
      if img.GrayAt xy.1 xy.2 > 0 then out.SetGray xy.1 xy.2 255 else out.SetGray xy.1 xy.2 0)
    (NewGray b)

/-- The number of foreground (non-zero) pixels inside the bounds. -/
def foreground (g : Gray) : Nat :=
  ((rowMajor g.Rect.minX g.Rect.maxX g.Rect.minY g.Rect.maxY).filter
    (fun xy => decide (g.GrayAt xy.1 xy.2 > 0))).length

/-- The function `GuoHallThinning`, with the fuel of the pass loop as an
argument. -/
def GuoHallThinningFuel (fuel : Nat) (img : Gray) : Option (Gray × Nat) :=
  thinLoop img.Rect.maxX img.Rect.maxY fuel (binaryCopy img)

/-- The function `GuoHallThinning`.  The pass loop gets one pass per
foreground pixel and one more, which it never exhausts
(`GuoHallThinning_fuel`), so the fallback branch is never taken. -/
def GuoHallThinning (img : Gray) : Gray :=
  match GuoHallThinningFuel (foreground img + 1) img with
  | some r => r.1
  | none => binaryCopy img

/-- The Sobel kernel `gx` of `EdgeDetection`. -/
def gx : List (List Int) := [[-1, 0, 1], [-2, 0, 2], [-1, 0, 1]]

/-- The Sobel kernel `gy` of `EdgeDetection`. -/
def gy : List (List Int) := [[-1, -2, -1], [0, 0, 0], [1, 2, 1]]

/-- The entry `k[i][j]` of a kernel. -/
def kernelAt (k : List (List Int)) (i j : Int) : Int :=
  (k.getD i.toNat []).getD j.toNat 0

/-- The pair `(sumX, sumY)` after the loops over `ky` and `kx` at `(x, y)`. -/
def sobelSums (src : Gray) (x y : Int) : Int × Int :=
  (rowMajor (-1) 2 (-1) 2).foldl
    (fun s k =>
      let pix : Int := (src.GrayAt (x + k.1) (y + k.2) : Nat)
      (s.1 + kernelAt gx (k.2 + 1) (k.1 + 1) * pix, s.2 + kernelAt gy (k.2 + 1) (k.1 + 1) * pix))
    (0, 0)

/-- The test `math.Sqrt(float64(n)) > threshold` for an integer-valued
threshold, as `main` passes (`float64(*threshold)` of an unsigned flag) and as
a caller may pass with a negative sign.  The sums `n` are below `2 ^ 22`, where
`float64(n)` is exact and the rounded root of `n` exceeds an integer `t ≥ 0`
exactly when `n > t * t`; a root, being non-negative, exceeds every negative
threshold. -/
def magnitudeAbove (n threshold : Int) : Bool :=
  decide (threshold < 0) || decide (threshold * threshold < n)

/-- The luminance image `src` built by the first loop of `EdgeDetection`. -/
def luminanceImage (img : Image) : Gray :=
  let bounds := img.Bounds
  (rowMajor bounds.minX bounds.maxX bounds.minY bounds.maxY).foldl
    (fun src xy => src.SetGray xy.1 xy.2 (grayVal (img.At xy.1 xy.2)))
    (NewGray bounds)

/-- The function `EdgeDetection`, for an integer-valued threshold. -/
def EdgeDetection (img : Image) (threshold : Int) : Gray :=
  let bounds := img.Bounds
  let w := bounds.Dx
  let h := bounds.Dy
  let src := luminanceImage img
  (rowMajor 1 (w - 1) 1 (h - 1)).foldl
    (fun gray xy =>
      let s := sobelSums src xy.1 xy.2
      let magnitude := if magnitudeAbove (s.1 * s.1 + s.2 * s.2) threshold then 255 else 0
      gray.SetGray xy.1 xy.2 magnitude)
    (NewGray bounds)

/-! ## Predicates, invariants and concrete inputs -/

/-- A buffer as `image.NewGray` lays it out: stride `Dx`, `Dx*Dy` pixels. -/
def Gray.WF (g : Gray) : Prop :=
  g.Stride = g.Rect.Dx ∧ g.Pix.length = (g.Rect.Dx * g.Rect.Dy).toNat

/-- A rectangle as Go requires it (`Min.X ≤ Max.X` and `Min.Y ≤ Max.Y`);
`image.NewGray` panics on any other. -/
def Rectangle.WellFormed (r : Rectangle) : Prop :=
  r.minX ≤ r.maxX ∧ r.minY ≤ r.maxY


/-- A two-valued grid: every pixel is background (0) or foreground (255). -/
def Gray.Binary (g : Gray) : Prop :=
  ∀ x y, g.GrayAt x y = 0 ∨ g.GrayAt x y = 255

/-- The number of foreground pixels among the eight neighbours of `(x, y)`. -/
def fgNeighbours (g : Gray) (x y : Int) : Nat :=
  (([(0, -1), (1, -1), (1, 0), (1, 1), (0, 1), (-1, 1), (-1, 0), (-1, -1)] :
      List (Int × Int)).filter
    (fun d => decide (0 < g.GrayAt (x + d.1) (y + d.2)))).length

/-- The 8-adjacency of the specification: the coordinates differ by at most 1
on both axes. -/
def adjacent8 (a b : Point) : Prop :=
  |a.X - b.X| ≤ 1 ∧ |a.Y - b.Y| ≤ 1

instance (a b : Point) : Decidable (adjacent8 a b) := by
  unfold adjacent8
  infer_instance

/-- The foreground is 8-connected: any two foreground pixels are joined by a
chain of foreground pixels in which consecutive pixels are 8-adjacent. -/
def Connected8 (g : Gray) : Prop :=
  ∀ p q : Point, 0 < g.GrayAt p.X p.Y → 0 < g.GrayAt q.X q.Y →
    ∃ chain : List Point, chain.head? = some p ∧ chain.getLast? = some q ∧
      (∀ c ∈ chain, 0 < g.GrayAt c.X c.Y) ∧
      chain.Chain' adjacent8

/-- The row-major order on points: `y` first, then `x`. -/
def rowMajorLt (p q : Point) : Prop :=
  p.Y < q.Y ∨ (p.Y = q.Y ∧ p.X < q.X)

/-- The 10x10 mask with an 8x8 block of foreground at `x, y` in `1..8`. -/
def filledSquare : Gray :=
  { Pix := (List.range 100).map (fun i =>
      if 1 ≤ i % 10 ∧ i % 10 ≤ 8 ∧ 1 ≤ i / 10 ∧ i / 10 ≤ 8 then 255 else 0)
    Stride := 10
    Rect := ⟨0, 0, 10, 10⟩ }

/-- The 10x10 mask whose only foreground pixel is `(4, 4)`. -/
def singlePixel : Gray :=
  { Pix := (List.replicate 100 0).set 44 255
    Stride := 10
    Rect := ⟨0, 0, 10, 10⟩ }

/-- A 1x1 image whose pixel is opaque with `R = G = B = 128`; its `RGBA()` is
`128 * 0x101` on the colour channels. -/
def grey128 : Image :=
  { Bounds := ⟨0, 0, 1, 1⟩
    At := fun _ _ => ⟨32896, 32896, 32896, 65535⟩ }

/-- The luminance of the specification of `Threshold`, on 8-bit channels:
the weighted sum rounded half-up, `(299 R + 587 G + 114 B + 500) / 1000`. -/
def specLuminance (R G B : Nat) : Nat :=
  (299 * R + 587 * G + 114 * B + 500) / 1000

/-- A 1x1 image whose pixel is opaque with `R = 0`, `G = 1`, `B = 0`. -/
def greenDot : Image :=
  { Bounds := ⟨0, 0, 1, 1⟩
    At := fun _ _ => ⟨0, 257, 0, 65535⟩ }

/-- The image over `bounds` whose pixels are all opaque with `R = G = B = v`,
a flat image of luminance `v`. -/
def flatImage (bounds : Rectangle) (v : Nat) : Image :=
  { Bounds := bounds
    At := fun _ _ => ⟨257 * v, 257 * v, 257 * v, 65535⟩ }

/-- A 3x3 image, black but for a white right column: a vertical edge. -/
def edgeImage : Image :=
  { Bounds := ⟨0, 0, 3, 3⟩
    At := fun x _ => if x = 2 then ⟨65535, 65535, 65535, 65535⟩ else ⟨0, 0, 0, 65535⟩ }

/-- The points whose flag is set: the multiset the traversal has visited. -/
def visitedPoints : List Point → List Bool → List Point
  | p :: ps, b :: bs => if b then p :: visitedPoints ps bs else visitedPoints ps bs
  | _, _ => []

/-- The invariant of the traversal loop: one flag per point, the path is a
rearrangement of the flagged points, and the jumps recorded so far are
strictly increasing positions inside the path. -/
structure PathInv (points : List Point) (s : PathState) : Prop where
  flags : s.visited.length = points.length
  perm : s.path.Perm (visitedPoints points s.visited)
  sorted : s.jumps.Pairwise (· < ·)
  inside : ∀ j ∈ s.jumps, 0 < j ∧ j < s.path.length

/-! ## Further definitions: strokes, greedy order, removal condition -/

/-- The state after one iteration of the traversal loop of `BuildPaths` that
found `bestIdx`: the body of the loop below the `break`. -/
def stepState (points : List Point) (s : PathState) (bestIdx : Nat) : PathState :=
  let visited := s.visited.set bestIdx true
  let path := s.path ++ [points.getD bestIdx default]
  let jumps :=
    if path.length > 1 then
      if !nextToEachOther (path.getD (path.length - 1) default)
          (path.getD (path.length - 2) default) then
        s.jumps ++ [path.length - 1]
      else s.jumps
    else s.jumps
  ⟨path, jumps, visited, bestIdx⟩

/-- The strokes that the final loop of `BuildPaths` would cut from a state of
the traversal. -/
def strokesOf (s : PathState) : List (List Point) :=
  slicePaths s.path 0 (s.jumps ++ [s.path.length])

/-- The number of consecutive pairs of a traversal that are not 8-adjacent. -/
def countJumps : List Point → Nat
  | a :: b :: rest => (if adjacent8 a b then 0 else 1) + countJumps (b :: rest)
  | _ => 0

/-- The strokes cut a path at its jumps: they concatenate to the path, none is
empty, consecutive points of a stroke are 8-adjacent, the last point of a
stroke and the first of the next are not, and there is one stroke more than
there are jumps. -/
structure StrokesOK (strokes : List (List Point)) (path : List Point) : Prop where
  flat : strokes.flatten = path
  nonempty : ∀ s ∈ strokes, s ≠ []
  inside : ∀ s ∈ strokes, s.Chain' adjacent8
  between : strokes.Chain' (fun s t => ∀ a ∈ s.getLast?, ∀ b ∈ t.head?, ¬ adjacent8 a b)
  count : strokes.length = countJumps path + 1

/-- The squared Euclidean distance as the specification words it: `dx^2 + dy^2`
on the exact integers, with no rounding and no wrapping. -/
def specSqDist (p q : Point) : Int :=
  (p.X - q.X) * (p.X - q.X) + (p.Y - q.Y) * (p.Y - q.Y)

/-- The index `k` is the greedy choice after the indices `visitedIdx` with the
traversal standing at index `c`: it is unvisited, no unvisited index is
strictly nearer to `c` in squared Euclidean distance, and among the unvisited
indices at the same distance it is the smallest. -/
def IsNearestUnvisited (points : List Point) (visitedIdx : List Nat) (c k : Nat) : Prop :=
  k < points.length ∧ k ∉ visitedIdx ∧
    ∀ j, j < points.length → j ∉ visitedIdx →
      specSqDist (points.getD k default) (points.getD c default)
          < specSqDist (points.getD j default) (points.getD c default) ∨
        (specSqDist (points.getD k default) (points.getD c default)
            = specSqDist (points.getD j default) (points.getD c default) ∧ k ≤ j)

/-- The greedy nearest-neighbour orders of the indices of `points`: the order
starts with index 0 and every later index is the greedy choice after the
indices before it. -/
inductive GreedyOrder (points : List Point) : List Nat → Prop
  | start : GreedyOrder points [0]
  | next (order : List Nat) (c k : Nat) :
      GreedyOrder points (order ++ [c]) →
      IsNearestUnvisited points (order ++ [c]) c k →
      GreedyOrder points (order ++ [c] ++ [k])

/-- The meaning of the pair `(bestIdx, bestDist)` when the inner loop of
`BuildPaths` has examined the indices below `i`: nothing unvisited so far, or
the first unvisited index of least distance to `cur` among them. -/
def BestSoFar (points : List Point) (cur : Point) (visited : List Bool) (i : Nat) :
    Option (Nat × Nat) → Prop
  | none => ∀ j, j < i → visited.getD j false = true
  | some (b, bd) =>
    b < i ∧ visited.getD b false = false ∧ bd = dist (points.getD b default) cur ∧
      ∀ j, j < i → visited.getD j false = false →
        bd < dist (points.getD j default) cur ∨
          (bd = dist (points.getD j default) cur ∧ b ≤ j)

/-- The neighbours `p2, p3, .., p9` of `(x, y)` as 0/1 values, clockwise from
the pixel directly above. -/
def neighbourRing (g : Gray) (x y : Int) : List Nat :=
  ([(0, -1), (1, -1), (1, 0), (1, 1), (0, 1), (-1, 1), (-1, 0), (-1, -1)] :
      List (Int × Int)).map
    (fun d => if 0 < g.GrayAt (x + d.1) (y + d.2) then 1 else 0)

/-- The number `A` of 0-to-1 transitions met walking the ring
`p2, p3, .., p9, p2`. -/
def ringTransitions (ring : List Nat) : Nat :=
  ((List.range 8).filter
    (fun i => decide (ring.getD i 0 = 0 ∧ ring.getD ((i + 1) % 8) 0 = 1))).length

/-- The removal condition of the specification at a foreground pixel, for the
even (`step = 0`) and the odd sub-iteration: `2 ≤ n ≤ 6`, `A = 1`, and the two
products of the sub-iteration are zero. -/
def SpecRemovable (g : Gray) (step : Nat) (x y : Int) : Prop :=
  0 < g.GrayAt x y ∧
    2 ≤ (neighbourRing g x y).sum ∧ (neighbourRing g x y).sum ≤ 6 ∧
    ringTransitions (neighbourRing g x y) = 1 ∧
    (if step = 0 then
      (neighbourRing g x y).getD 0 0 * (neighbourRing g x y).getD 2 0
          * (neighbourRing g x y).getD 4 0 = 0 ∧
        (neighbourRing g x y).getD 2 0 * (neighbourRing g x y).getD 4 0
          * (neighbourRing g x y).getD 6 0 = 0
    else
      (neighbourRing g x y).getD 0 0 * (neighbourRing g x y).getD 2 0
          * (neighbourRing g x y).getD 6 0 = 0 ∧
        (neighbourRing g x y).getD 0 0 * (neighbourRing g x y).getD 4 0
          * (neighbourRing g x y).getD 6 0 = 0)

/-- The decision of `removable` as a function of the foreground bits of the
pixel and of its neighbours `p2, .., p9`. -/
def removableBits (even : Bool) (b1 b2 b3 b4 b5 b6 b7 b8 b9 : Bool) : Bool :=
  if !b1 then false
  else
    let bVals : List Int :=
      [boolToInt b1, boolToInt b2, boolToInt b3, boolToInt b4, boolToInt b5, boolToInt b6,
        boolToInt b7, boolToInt b8, boolToInt b9]
    let bv := fun i : Nat => bVals.getD i 0
    let n := bv 1 + bv 2 + bv 3 + bv 4 + bv 5 + bv 6 + bv 7 + bv 8
    if n < 2 ∨ n > 6 then false
    else
      let A := (List.range' 1 8).foldl
        (fun A i => if bv (i % 8 + 1) = 1 ∧ bv i = 0 then A + 1 else A) (0 : Int)
      if A ≠ 1 then false
      else if even then
        if bv 1 * bv 3 * bv 5 ≠ 0 then false
        else if bv 3 * bv 5 * bv 7 ≠ 0 then false
        else true
      else
        if bv 1 * bv 3 * bv 7 ≠ 0 then false
        else if bv 1 * bv 5 * bv 7 ≠ 0 then false
        else true

/-- The removal condition of the specification as a function of the same
bits. -/
def specBits (even : Bool) (b1 b2 b3 b4 b5 b6 b7 b8 b9 : Bool) : Bool :=
  let ring : List Nat := [b2, b3, b4, b5, b6, b7, b8, b9].map (fun b => if b then 1 else 0)
  b1 && decide (2 ≤ ring.sum) && decide (ring.sum ≤ 6) && decide (ringTransitions ring = 1) &&
    (if even then
      decide (ring.getD 0 0 * ring.getD 2 0 * ring.getD 4 0 = 0) &&
        decide (ring.getD 2 0 * ring.getD 4 0 * ring.getD 6 0 = 0)
    else
      decide (ring.getD 0 0 * ring.getD 2 0 * ring.getD 6 0 = 0) &&
        decide (ring.getD 0 0 * ring.getD 4 0 * ring.getD 6 0 = 0))

/-- The 4x4 mask with a 2x2 block of foreground at `x, y` in `1..2`. -/
def smallSquare : Gray :=
  { Pix := [0, 0, 0, 0, 0, 255, 255, 0, 0, 255, 255, 0, 0, 0, 0, 0]
    Stride := 4
    Rect := ⟨0, 0, 4, 4⟩ }

/-- The 5x3 mask with a horizontal line of foreground at `y = 1`, `x` in
`1..3`. -/
def lineMask : Gray :=
  { Pix := [0, 0, 0, 0, 0, 0, 255, 255, 255, 0, 0, 0, 0, 0, 0]
    Stride := 5
    Rect := ⟨0, 0, 5, 3⟩ }

/-! ## generate-jcode/main.go and send-jcode/main.go -/

/-- The two masks of lines 45 to 62 of the `main` of generate-jcode: the image
saved as an artifact inside the selected branch, and the value of the variable
`thresholdImage` of line 45 that line 62 hands to `GuoHallThinning`, where
`none` is the nil pointer. -/
structure BinarizeFlow where
  saved : Gray
  handed : Option Gray

/-- Lines 45 to 60 of the `main` of generate-jcode, the writes of the
artifacts taken to succeed.  Line 45 declares `thresholdImage`, nil.  In the
branch of line 46 the statement `thresholdImage := Threshold(..)` declares a
new variable of the same name, in scope until the end of the branch; in the
other branch `thresholdImage = EdgeDetection(..)` assigns the variable of
line 45.  The flag `threshold` is unsigned: `uint8(*threshold)` keeps its low
byte and `float64(*threshold)` its value. -/
def mainBinarize (bwMode : String) (inputImage : Image) (threshold : Nat) (invert : Bool) :
    BinarizeFlow :=
  let thresholdImage : Option Gray := none
  if bwMode = "threshold" then
    let thresholdImageInner : Gray := Threshold inputImage (threshold % 256) invert
    { saved := thresholdImageInner, handed := thresholdImage }
  else
    let thresholdImage : Option Gray := some (EdgeDetection inputImage (threshold : Int))
    { saved := EdgeDetection inputImage (threshold : Int), handed := thresholdImage }

/-- The replies that the streaming loop of send-jcode tells apart:
`jcode.Consumed`, `jcode.Log`, and anything else, the nil of a failed read
included. -/
inductive Reply where
  | Consumed
  | Log
  | Other
deriving DecidableEq

/-- The variables of the streaming loop of send-jcode, with three counters
that the program does not hold: the instructions passed to `robotEnc.Write`,
in order, the number of replies read, and the number of `Consumed` replies
among them. -/
structure StreamState (α : Type) where
  queue : List α
  currentBuffer : Int
  remainingN : Int
  completedN : Int
  written : List α
  replyCount : Nat
  acked : Nat

/-- The state of send-jcode on entry to the streaming loop. -/
def streamInit {α : Type} (queue : List α) : StreamState α :=
  { queue := queue, currentBuffer := 0, remainingN := queue.length, completedN := 0,
    written := [], replyCount := 0, acked := 0 }

/-- One iteration of the loop `for len(queue) > 0 { .. }` of send-jcode, the
device answering the `k`-th read with `replies k`; a state with an empty queue
has left the loop and stays as it is. -/
def streamStep {α : Type} (bufferSize : Int) (replies : Nat → Reply) (s : StreamState α) :
    StreamState α :=
  match s.queue with
  | [] => s
  | ins :: rest =>
    if s.currentBuffer < bufferSize then
      { s with queue := rest, currentBuffer := s.currentBuffer + 1,
               written := s.written ++ [ins] }
    else
      match replies s.replyCount with
      | Reply.Consumed =>
        { s with currentBuffer := s.currentBuffer - 1, remainingN := s.remainingN - 1,
                 completedN := s.completedN + 1, replyCount := s.replyCount + 1,
                 acked := s.acked + 1 }
      | _ => { s with replyCount := s.replyCount + 1 }

/-- The state of the streaming loop after `n` iterations. -/
def streamRun {α : Type} (bufferSize : Int) (replies : Nat → Reply) :
    Nat → StreamState α → StreamState α
  | 0, s => s
  | n + 1, s => streamRun bufferSize replies n (streamStep bufferSize replies s)

/-- The coordinates of the point are below `B` in absolute value. -/
def Point.Within (B : Int) (p : Point) : Prop :=
  |p.X| < B ∧ |p.Y| < B

instance (B : Int) (p : Point) : Decidable (p.Within B) := by
  unfold Point.Within
  infer_instance

/-! ## Lemmas on the traversal of `BuildPaths` -/

theorem scanNearest_none (cur : Point) (visited : List Bool) :
    ∀ (ps : List Point) (i : Nat) (best : Option (Nat × Nat)),
      scanNearest cur visited ps i best = none →
      best = none ∧ ∀ j, i ≤ j → j < i + ps.length → visited.getD j false = true := by
  intro ps
  induction ps with
  | nil => intro i best h; exact ⟨h, fun j h1 h2 => by simp at h2; omega⟩
  | cons p ps ih =>
    intro i best h
    unfold scanNearest at h
    by_cases hv : visited.getD i false = true
    · rw [if_pos hv] at h
      obtain ⟨hb, hall⟩ := ih (i + 1) best h
      refine ⟨hb, fun j h1 h2 => ?_⟩
      rcases Nat.eq_or_lt_of_le h1 with h3 | h3
      · rw [← h3]; exact hv
      · exact hall j h3 (by simp at h2; omega)
    · rw [if_neg hv] at h
      exfalso
      cases best with
      | none => exact absurd (ih _ _ h).1 (by simp)
      | some b =>
        obtain ⟨bi, bd⟩ := b
        simp only at h
        split at h
        · exact absurd (ih _ _ h).1 (by simp)
        · exact absurd (ih _ _ h).1 (by simp)

theorem scanNearest_some (cur : Point) (visited : List Bool) :
    ∀ (ps : List Point) (i : Nat) (best : Option (Nat × Nat)) (k : Nat) (d : Nat),
      scanNearest cur visited ps i best = some (k, d) →
      best = some (k, d) ∨ (i ≤ k ∧ k < i + ps.length ∧ visited.getD k false = false) := by
  intro ps
  induction ps with
  | nil => intro i best k d h; exact Or.inl h
  | cons p ps ih =>
    intro i best k d h
    have key : ∀ b : Option (Nat × Nat),
        scanNearest cur visited ps (i + 1) b = some (k, d) →
        (b = best ∨ (∃ e, b = some (i, e)) ∧ visited.getD i false = false) →
        best = some (k, d) ∨ (i ≤ k ∧ k < i + (p :: ps).length ∧ visited.getD k false = false) := by
      intro b hb hcase
      rcases ih (i + 1) b k d hb with h1 | ⟨h1, h2, h3⟩
      · rcases hcase with h4 | ⟨⟨e, h4⟩, h5⟩
        · left; rw [← h4]; exact h1
        · right
          rw [h4] at h1
          simp only [Option.some.injEq, Prod.mk.injEq] at h1
          refine ⟨by omega, by simp; omega, ?_⟩
          rw [← h1.1]; exact h5
      · right; exact ⟨by omega, by simp at h2 ⊢; omega, h3⟩
    unfold scanNearest at h
    by_cases hv : visited.getD i false = true
    · rw [if_pos hv] at h
      exact key best h (Or.inl rfl)
    · rw [if_neg hv] at h
      have hv' : visited.getD i false = false := by simpa using hv
      cases best with
      | none => exact key _ h (Or.inr ⟨⟨_, rfl⟩, hv'⟩)
      | some b =>
        obtain ⟨bi, bd⟩ := b
        simp only at h
        split at h
        · exact key _ h (Or.inr ⟨⟨_, rfl⟩, hv'⟩)
        · exact key _ h (Or.inl rfl)

theorem nearest_some {points : List Point} {visited : List Bool} {current k : Nat}
    (h : nearest points visited current = some k) :
    k < points.length ∧ visited.getD k false = false := by
  unfold nearest at h
  rw [Option.map_eq_some'] at h
  obtain ⟨⟨k', d⟩, h1, h2⟩ := h
  simp only at h2
  subst h2
  rcases scanNearest_some _ _ _ _ _ _ _ h1 with h3 | ⟨_, h4, h5⟩
  · exact absurd h3 (by simp)
  · exact ⟨by omega, h5⟩

theorem nearest_none {points : List Point} {visited : List Bool} {current : Nat}
    (h : nearest points visited current = none) :
    ∀ j, j < points.length → visited.getD j false = true := by
  unfold nearest at h
  rw [Option.map_eq_none'] at h
  intro j hj
  exact (scanNearest_none _ _ _ _ _ h).2 j (Nat.zero_le _) (by omega)

theorem visitedPoints_length_le :
    ∀ (ps : List Point) (bs : List Bool), (visitedPoints ps bs).length ≤ ps.length := by
  intro ps
  induction ps with
  | nil => intro bs; simp [visitedPoints]
  | cons p ps ih =>
    intro bs
    cases bs with
    | nil => simp [visitedPoints]
    | cons b bs =>
      have := ih bs
      cases b <;> simp [visitedPoints] <;> omega

theorem visitedPoints_full :
    ∀ (ps : List Point) (bs : List Bool),
      ps.length ≤ (visitedPoints ps bs).length → visitedPoints ps bs = ps := by
  intro ps
  induction ps with
  | nil => intro bs _; simp [visitedPoints]
  | cons p ps ih =>
    intro bs h
    cases bs with
    | nil => simp [visitedPoints] at h
    | cons b bs =>
      have hle := visitedPoints_length_le ps bs
      cases b
      · simp [visitedPoints] at h; omega
      · simp [visitedPoints] at h ⊢
        exact ih bs h

theorem visitedPoints_all :
    ∀ (ps : List Point) (bs : List Bool), bs.length = ps.length →
      (∀ j, j < ps.length → bs.getD j false = true) → visitedPoints ps bs = ps := by
  intro ps
  induction ps with
  | nil => intro bs _ _; simp [visitedPoints]
  | cons p ps ih =>
    intro bs hl hall
    cases bs with
    | nil => simp at hl
    | cons b bs =>
      have h0 := hall 0 (by simp)
      simp at h0
      subst h0
      simp only [visitedPoints, if_true, List.cons.injEq, true_and]
      refine ih bs (by simpa using hl) (fun j hj => ?_)
      have := hall (j + 1) (by simp; omega)
      simpa using this

theorem visitedPoints_replicate :
    ∀ (ps : List Point) (n : Nat), visitedPoints ps (List.replicate n false) = [] := by
  intro ps
  induction ps with
  | nil => intro n; simp [visitedPoints]
  | cons p ps ih =>
    intro n
    cases n with
    | zero => simp [visitedPoints]
    | succ n => simp [List.replicate_succ, visitedPoints, ih]

theorem visitedPoints_set :
    ∀ (ps : List Point) (bs : List Bool) (k : Nat), k < ps.length → bs.length = ps.length →
      bs.getD k false = false →
      (visitedPoints ps (bs.set k true)).Perm (ps.getD k default :: visitedPoints ps bs) := by
  intro ps
  induction ps with
  | nil => intro bs k hk; simp at hk
  | cons p ps ih =>
    intro bs k hk hl hv
    cases bs with
    | nil => simp at hl
    | cons b bs =>
      cases k with
      | zero =>
        simp at hv
        subst hv
        simp [visitedPoints]
      | succ k =>
        have hk' : k < ps.length := by simpa using hk
        have hl' : bs.length = ps.length := by simpa using hl
        have hv' : bs.getD k false = false := by simpa using hv
        have := ih bs k hk' hl' hv'
        cases b
        · simpa [visitedPoints] using this
        · simp only [List.set_cons_succ, visitedPoints, if_true, List.getD_cons_succ]
          exact (List.Perm.cons p this).trans (List.Perm.swap _ _ _)

theorem pathInv_init (points : List Point) (h : points ≠ []) :
    PathInv points (initState points) := by
  have hpos : 0 < points.length := List.length_pos.mpr h
  refine ⟨by simp [initState], ?_, by simp [initState], by simp [initState]⟩
  have := visitedPoints_set points (List.replicate points.length false) 0 hpos (by simp)
    (by simp [List.getD_eq_getElem?_getD, hpos])
  rw [visitedPoints_replicate] at this
  exact this.symm

theorem pathInv_step {points : List Point} {s : PathState} {k : Nat}
    (inv : PathInv points s) (hk : nearest points s.visited s.current = some k) :
    PathInv points
      ⟨s.path ++ [points.getD k default],
        if (s.path ++ [points.getD k default]).length > 1 then
          if !nextToEachOther
              ((s.path ++ [points.getD k default]).getD
                ((s.path ++ [points.getD k default]).length - 1) default)
              ((s.path ++ [points.getD k default]).getD
                ((s.path ++ [points.getD k default]).length - 2) default) then
            s.jumps ++ [(s.path ++ [points.getD k default]).length - 1]
          else s.jumps
        else s.jumps,
        s.visited.set k true, k⟩ := by
  obtain ⟨hlt, hfalse⟩ := nearest_some hk
  have hmono : ∀ j ∈ s.jumps, 0 < j ∧ j < (s.path ++ [points.getD k default]).length := by
    intro j hj
    have := inv.inside j hj
    simp; omega
  refine ⟨by simp [inv.flags], ?_, ?_, ?_⟩
  · refine List.Perm.trans ?_ (visitedPoints_set points s.visited k hlt inv.flags hfalse).symm
    exact (List.perm_append_comm).trans (List.Perm.cons _ inv.perm)
  · simp only
    split
    · split
      · rw [List.pairwise_append]
        refine ⟨inv.sorted, by simp, ?_⟩
        intro a ha b hb
        have := inv.inside a ha
        simp at hb
        subst hb
        simp
        omega
      · exact inv.sorted
    · exact inv.sorted
  · simp only
    split
    · rename_i hlen
      split
      · intro j hj
        rcases List.mem_append.mp hj with h1 | h1
        · exact hmono j h1
        · simp at h1
          subst h1
          simp at hlen ⊢
          omega
      · exact hmono
    · exact hmono

theorem pathInv_buildLoop (points : List Point) :
    ∀ (fuel : Nat) (s : PathState), PathInv points s →
      PathInv points (buildLoop points fuel s) := by
  intro fuel
  induction fuel with
  | zero => intro s inv; exact inv
  | succ fuel ih =>
    intro s inv
    unfold buildLoop
    split
    · split
      · exact inv
      · rename_i k hk
        exact ih _ (pathInv_step inv hk)
    · exact inv

/-- On exit from the traversal loop every point has been visited. -/
theorem buildLoop_path_perm (points : List Point) :
    ∀ (fuel : Nat) (s : PathState), PathInv points s →
      points.length ≤ s.path.length + fuel →
      (buildLoop points fuel s).path.Perm points := by
  have done : ∀ s : PathState, PathInv points s → points.length ≤ s.path.length →
      s.path.Perm points := by
    intro s inv hlen
    have h1 := inv.perm
    rw [visitedPoints_full points s.visited (by rw [← h1.length_eq]; exact hlen)] at h1
    exact h1
  intro fuel
  induction fuel with
  | zero => intro s inv hlen; exact done s inv (by simpa using hlen)
  | succ fuel ih =>
    intro s inv hlen
    unfold buildLoop
    split
    · split
      · rename_i hnone
        have h1 := inv.perm
        rw [visitedPoints_all points s.visited inv.flags (nearest_none hnone)] at h1
        exact h1
      · rename_i k hk
        exact ih _ (pathInv_step inv hk) (by simp; omega)
    · exact done s inv (by omega)

/-- The fuel of `BuildPaths` is never exhausted: from a state whose path lacks
at most `fuel` points, more fuel gives the same result. -/
theorem buildLoop_fuel (points : List Point) :
    ∀ (fuel extra : Nat) (s : PathState), points.length ≤ s.path.length + fuel →
      buildLoop points (fuel + extra) s = buildLoop points fuel s := by
  intro fuel
  induction fuel with
  | zero =>
    intro extra s hlen
    cases extra with
    | zero => rfl
    | succ e =>
      simp only [Nat.zero_add]
      unfold buildLoop
      rw [if_neg (by omega)]
  | succ fuel ih =>
    intro extra s hlen
    rw [Nat.add_right_comm]
    unfold buildLoop
    split
    · split
      · rfl
      · exact ih extra _ (by simp; omega)
    · rfl

theorem slicePaths_flatten (path : List Point) :
    ∀ (jumps : List Nat) (last : Nat), (last :: jumps).Pairwise (· ≤ ·) →
      (slicePaths path last jumps).flatten =
        (path.take ((last :: jumps).getLast (by simp))).drop last := by
  intro jumps
  induction jumps with
  | nil => intro last _; simp [slicePaths]
  | cons j rest ih =>
    intro last hs
    rw [List.pairwise_cons] at hs
    have hj : last ≤ j := hs.1 j (by simp)
    have hm : j ≤ (j :: rest).getLast (by simp) := by
      rcases List.eq_or_ne_mem_of_mem (List.getLast_mem (l := j :: rest) (by simp)) with h | ⟨_, h⟩
      · exact le_of_eq h.symm
      · exact (List.pairwise_cons.mp hs.2).1 _ h
    simp only [slicePaths, List.flatten_cons, ih j hs.2, List.getLast_cons_cons]
    generalize (j :: rest).getLast (by simp) = m at hm
    have e1 : List.take j path = List.take j (List.take m path) := by
      rw [List.take_take, Nat.min_eq_left hm]
    rw [e1]
    generalize List.take m path = l
    conv_rhs => rw [← List.take_append_drop j l, List.drop_append_eq_append_drop]
    congr 1
    by_cases hjl : j ≤ l.length
    · rw [List.length_take, Nat.min_eq_left hjl, Nat.sub_eq_zero_of_le hj]; rfl
    · rw [List.drop_eq_nil_of_le (by omega : l.length ≤ j)]; simp

/-- The traversal loop of `BuildPaths` has left its loop by the time the fuel
`len(points)` is used up: every larger fuel gives the same state. -/
theorem BuildPaths_fuel (points : List Point) (extra : Nat) :
    buildLoop points (points.length + extra) (initState points)
      = buildLoop points points.length (initState points) :=
  buildLoop_fuel points points.length extra (initState points) (by omega)

/-! ## Lemmas on loops and pixel buffers -/

theorem mem_intRange {lo hi v : Int} : v ∈ intRange lo hi ↔ lo ≤ v ∧ v < hi := by
  unfold intRange
  simp only [List.mem_map, List.mem_range]
  constructor
  · rintro ⟨i, hi1, rfl⟩
    omega
  · rintro ⟨h1, h2⟩
    exact ⟨(v - lo).toNat, by omega, by omega⟩

theorem mem_rowMajor {x0 x1 y0 y1 : Int} {xy : Int × Int} :
    xy ∈ rowMajor x0 x1 y0 y1 ↔ (x0 ≤ xy.1 ∧ xy.1 < x1) ∧ (y0 ≤ xy.2 ∧ xy.2 < y1) := by
  obtain ⟨x, y⟩ := xy
  unfold rowMajor
  simp only [List.mem_flatMap, List.mem_map, Prod.mk.injEq, mem_intRange]
  constructor
  · rintro ⟨y', hy, x', hx, rfl, rfl⟩
    exact ⟨hx, hy⟩
  · rintro ⟨hx, hy⟩
    exact ⟨y, hy, x, hx, rfl, rfl⟩

theorem contains_iff {r : Rectangle} {x y : Int} :
    r.contains x y = true ↔ (r.minX ≤ x ∧ x < r.maxX) ∧ (r.minY ≤ y ∧ y < r.maxY) := by
  unfold Rectangle.contains
  simp only [Bool.and_eq_true, decide_eq_true_eq]
  tauto

theorem contains_iff_mem {r : Rectangle} {x y : Int} :
    r.contains x y = true ↔ (x, y) ∈ rowMajor r.minX r.maxX r.minY r.maxY := by
  rw [contains_iff, mem_rowMajor]

theorem foldl_append_if {α β : Type} (p : α → Bool) (f : α → β) :
    ∀ (l : List α) (init : List β),
      l.foldl (fun acc a => if p a then acc ++ [f a] else acc) init
        = init ++ (l.filter p).map f := by
  intro l
  induction l with
  | nil => intro init; simp
  | cons a l ih =>
    intro init
    simp only [List.foldl_cons, ih]
    cases h : p a <;> simp [List.filter_cons, h]

theorem offset_arith {W H a b : Int} (ha : 0 ≤ a) (haW : a < W) (hb : 0 ≤ b) (hbH : b < H) :
    0 ≤ b * W + a ∧ b * W + a < W * H := by
  have h1 : 0 ≤ b * W := mul_nonneg hb (by omega)
  have h2 : (b + 1) * W ≤ H * W := mul_le_mul_of_nonneg_right (by omega) (by omega)
  have h3 : (b + 1) * W = b * W + W := by ring
  have h4 : H * W = W * H := by ring
  constructor <;> linarith

theorem offset_inj {W a b a' b' : Int} (ha : 0 ≤ a) (haW : a < W) (ha' : 0 ≤ a') (haW' : a' < W)
    (h : b * W + a = b' * W + a') : a = a' ∧ b = b' := by
  have key : ∀ {a b a' b' : Int}, 0 ≤ a → a' < W → b * W + a = b' * W + a' → ¬ b' < b := by
    intro a b a' b' ha ha' h hlt
    have h2 : (b' + 1) * W ≤ b * W := mul_le_mul_of_nonneg_right (by omega) (by omega)
    have h3 : (b' + 1) * W = b' * W + W := by ring
    linarith
  have hb : b = b' := le_antisymm (not_lt.mp (key ha haW' h)) (not_lt.mp (key ha' haW h.symm))
  subst hb
  exact ⟨by linarith, rfl⟩

theorem Gray.offset_lt {g : Gray} (wf : g.WF) {x y : Int} (h : g.Rect.contains x y = true) :
    g.PixOffset x y < g.Pix.length := by
  obtain ⟨⟨h1, h2⟩, h3, h4⟩ := contains_iff.mp h
  have := offset_arith (W := g.Rect.Dx) (H := g.Rect.Dy) (a := x - g.Rect.minX)
    (b := y - g.Rect.minY) (by omega) (by unfold Rectangle.Dx; omega) (by omega)
    (by unfold Rectangle.Dy; omega)
  unfold Gray.PixOffset
  rw [wf.2, wf.1]
  omega

theorem Gray.offset_eq {g : Gray} (wf : g.WF) {x y x' y' : Int}
    (h : g.Rect.contains x y = true) (h' : g.Rect.contains x' y' = true)
    (e : g.PixOffset x y = g.PixOffset x' y') : x = x' ∧ y = y' := by
  obtain ⟨⟨h1, h2⟩, h3, h4⟩ := contains_iff.mp h
  obtain ⟨⟨h1', h2'⟩, h3', h4'⟩ := contains_iff.mp h'
  have p := offset_arith (W := g.Rect.Dx) (H := g.Rect.Dy) (a := x - g.Rect.minX)
    (b := y - g.Rect.minY) (by omega) (by unfold Rectangle.Dx; omega) (by omega)
    (by unfold Rectangle.Dy; omega)
  have p' := offset_arith (W := g.Rect.Dx) (H := g.Rect.Dy) (a := x' - g.Rect.minX)
    (b := y' - g.Rect.minY) (by omega) (by unfold Rectangle.Dx; omega) (by omega)
    (by unfold Rectangle.Dy; omega)
  unfold Gray.PixOffset at e
  rw [wf.1] at e
  have e' : (y - g.Rect.minY) * g.Rect.Dx + (x - g.Rect.minX)
      = (y' - g.Rect.minY) * g.Rect.Dx + (x' - g.Rect.minX) := by omega
  have := offset_inj (W := g.Rect.Dx) (by omega) (by unfold Rectangle.Dx; omega) (by omega)
    (by unfold Rectangle.Dx; omega) e'
  omega

theorem NewGray_WF (r : Rectangle) : (NewGray r).WF := by
  simp [Gray.WF, NewGray]

theorem NewGray_GrayAt (r : Rectangle) (x y : Int) : (NewGray r).GrayAt x y = 0 := by
  unfold Gray.GrayAt NewGray
  split
  · simp only [List.getD_eq_getElem?_getD]
    cases h : (List.replicate (r.Dx * r.Dy).toNat 0)[Gray.PixOffset
        { Pix := List.replicate (r.Dx * r.Dy).toNat 0, Stride := r.Dx, Rect := r } x y]? with
    | none => rfl
    | some v =>
      have := List.getElem?_mem h
      simp at this
      simp [this.2]
  · rfl

theorem SetGray_Rect (g : Gray) (x y : Int) (v : Nat) : (g.SetGray x y v).Rect = g.Rect := by
  unfold Gray.SetGray; split <;> rfl

theorem SetGray_WF {g : Gray} (wf : g.WF) (x y : Int) (v : Nat) : (g.SetGray x y v).WF := by
  unfold Gray.SetGray
  split
  · exact ⟨wf.1, by simpa using wf.2⟩
  · exact wf

theorem GrayAt_SetGray {g : Gray} (wf : g.WF) (x y : Int) (v : Nat) (x' y' : Int) :
    (g.SetGray x y v).GrayAt x' y'
      = if x' = x ∧ y' = y ∧ g.Rect.contains x y = true then v else g.GrayAt x' y' := by
  by_cases hc : g.Rect.contains x y = true
  · have hs : g.SetGray x y v = { g with Pix := g.Pix.set (g.PixOffset x y) v } := by
      unfold Gray.SetGray; rw [if_pos hc]
    rw [hs]
    unfold Gray.GrayAt
    by_cases hc' : g.Rect.contains x' y' = true
    · simp only [hc', if_true, hc, and_true]
      have hoff : ∀ a b, Gray.PixOffset { g with Pix := g.Pix.set (g.PixOffset x y) v } a b
          = g.PixOffset a b := fun _ _ => rfl
      rw [hoff]
      by_cases he : x' = x ∧ y' = y
      · rw [if_pos he, he.1, he.2]
        simp [List.getD_eq_getElem?_getD, List.getElem?_set, Gray.offset_lt wf hc]
      · rw [if_neg he]
        have hne : g.PixOffset x y ≠ g.PixOffset x' y' := by
          intro e
          have := Gray.offset_eq wf hc hc' e
          exact he ⟨this.1.symm, this.2.symm⟩
        simp [List.getD_eq_getElem?_getD, List.getElem?_set, hne]
    · simp only [hc', Bool.false_eq_true, if_false]
      rw [if_neg]
      rintro ⟨rfl, rfl, _⟩
      exact hc' hc
  · have hs : g.SetGray x y v = g := by
      unfold Gray.SetGray; rw [if_neg hc]
    rw [hs, if_neg (by tauto)]

/-- A loop that stores, at every coordinate of a list, a value that depends on
the coordinate only, leaves a well-formed buffer with those values at the
listed coordinates inside the bounds and the old values elsewhere. -/
theorem foldl_SetGray (f : Int × Int → Nat) :
    ∀ (l : List (Int × Int)) (g : Gray), g.WF →
      (l.foldl (fun o xy => o.SetGray xy.1 xy.2 (f xy)) g).WF ∧
      (l.foldl (fun o xy => o.SetGray xy.1 xy.2 (f xy)) g).Rect = g.Rect ∧
      ∀ x y, (l.foldl (fun o xy => o.SetGray xy.1 xy.2 (f xy)) g).GrayAt x y
        = if (x, y) ∈ l ∧ g.Rect.contains x y = true then f (x, y) else g.GrayAt x y := by
  intro l
  induction l with
  | nil => intro g wf; simp [wf]
  | cons a l ih =>
    intro g wf
    obtain ⟨h1, h2, h3⟩ := ih (g.SetGray a.1 a.2 (f a)) (SetGray_WF wf _ _ _)
    simp only [List.foldl_cons]
    refine ⟨h1, by rw [h2, SetGray_Rect], fun x y => ?_⟩
    rw [h3, SetGray_Rect, GrayAt_SetGray wf]
    by_cases hc : g.Rect.contains x y = true
    · by_cases hl : (x, y) ∈ l
      · simp [hl, hc]
      · by_cases ha : (x, y) = a
        · subst ha; simp [hc]
        · have : ¬ (x = a.1 ∧ y = a.2 ∧ g.Rect.contains a.1 a.2 = true) := by
            rintro ⟨rfl, rfl, _⟩; exact ha rfl
          simp [hl, hc, ha, this]
    · have hz : g.GrayAt x y = 0 := by unfold Gray.GrayAt; rw [if_neg hc]
      have : ¬ (x = a.1 ∧ y = a.2 ∧ g.Rect.contains a.1 a.2 = true) := by
        rintro ⟨rfl, rfl, h⟩; exact hc h
      simp [hc, this]

/-- Two well-formed buffers over the same well-formed rectangle with the same
pixels are the same buffer. -/
theorem Gray.ext_of_GrayAt {g₁ g₂ : Gray} (wf₁ : g₁.WF) (wf₂ : g₂.WF) (hr : g₁.Rect = g₂.Rect)
    (hw : g₁.Rect.WellFormed) (h : ∀ x y, g₁.GrayAt x y = g₂.GrayAt x y) : g₁ = g₂ := by
  obtain ⟨p₁, s₁, r₁⟩ := g₁
  obtain ⟨p₂, s₂, r₂⟩ := g₂
  simp only at hr
  subst hr
  simp only [Gray.WF] at wf₁ wf₂
  simp only [Rectangle.WellFormed] at hw
  have hs : s₁ = s₂ := by rw [wf₁.1, wf₂.1]
  subst hs
  have hlen : p₁.length = p₂.length := by rw [wf₁.2, wf₂.2]
  suffices hp : p₁ = p₂ by rw [hp]
  apply List.ext_getElem hlen
  intro i hi₁ hi₂
  have hW : 0 ≤ r₁.Dx := by unfold Rectangle.Dx; have := hw.1; omega
  have hH : 0 ≤ r₁.Dy := by unfold Rectangle.Dy; have := hw.2; omega
  have hi : (i : Int) < r₁.Dx * r₁.Dy := by
    have := wf₁.2
    simp only at this
    omega
  have hWpos : 0 < r₁.Dx := by
    rcases eq_or_lt_of_le hW with h0 | h0
    · rw [← h0] at hi; simp at hi; omega
    · exact h0
  have hmod := Int.emod_nonneg (i : Int) (ne_of_gt hWpos)
  have hmod2 := Int.emod_lt_of_pos (i : Int) hWpos
  have hdiv : 0 ≤ (i : Int) / r₁.Dx := Int.ediv_nonneg (by omega) hW
  have hdiv2 : (i : Int) / r₁.Dx < r₁.Dy :=
    Int.ediv_lt_of_lt_mul hWpos (by rw [mul_comm]; exact hi)
  have hc : r₁.contains (r₁.minX + (i : Int) % r₁.Dx) (r₁.minY + (i : Int) / r₁.Dx) = true := by
    rw [contains_iff]
    unfold Rectangle.Dx Rectangle.Dy at *
    omega
  have hoff : ∀ p : List Nat, Gray.PixOffset ⟨p, s₁, r₁⟩ (r₁.minX + (i : Int) % r₁.Dx)
      (r₁.minY + (i : Int) / r₁.Dx) = i := by
    intro p
    unfold Gray.PixOffset
    simp only
    rw [wf₁.1]
    have := Int.ediv_add_emod' (i : Int) r₁.Dx
    simp only [add_sub_cancel_left]
    omega
  have := h (r₁.minX + (i : Int) % r₁.Dx) (r₁.minY + (i : Int) / r₁.Dx)
  unfold Gray.GrayAt at this
  simp only [hc, if_true, hoff] at this
  simpa [List.getD_eq_getElem?_getD, List.getElem?_eq_getElem, hi₁, hi₂] using this

/-! ## Lemmas on `GuoHallThinning` -/

theorem GrayAt_outside {g : Gray} {x y : Int} (h : ¬ g.Rect.contains x y = true) :
    g.GrayAt x y = 0 := by
  unfold Gray.GrayAt; rw [if_neg h]

theorem contains_of_pos {g : Gray} {x y : Int} (h : 0 < g.GrayAt x y) :
    g.Rect.contains x y = true := by
  by_contra hc
  rw [GrayAt_outside hc] at h
  exact absurd h (by decide)

theorem filter_length_le {α : Type} (p q : α → Bool) :
    ∀ l : List α, (∀ a ∈ l, q a = true → p a = true) →
      (l.filter q).length ≤ (l.filter p).length := by
  intro l
  induction l with
  | nil => intro _; simp
  | cons a l ih =>
    intro h
    have ih' := ih (fun b hb => h b (List.mem_cons_of_mem _ hb))
    have ha := h a (List.mem_cons_self _ _)
    cases hq : q a
    · cases hp : p a <;> simp [List.filter_cons, hq, hp] <;> omega
    · simp [List.filter_cons, hq, ha hq]; omega

theorem filter_length_lt {α : Type} (p q : α → Bool) :
    ∀ l : List α, (∀ a ∈ l, q a = true → p a = true) →
      (∃ a ∈ l, p a = true ∧ q a = false) →
      (l.filter q).length < (l.filter p).length := by
  intro l
  induction l with
  | nil => intro _ h; simp at h
  | cons a l ih =>
    intro h hex
    have hl : ∀ b ∈ l, q b = true → p b = true := fun b hb => h b (List.mem_cons_of_mem _ hb)
    have hle := filter_length_le p q l hl
    have ha := h a (List.mem_cons_self _ _)
    obtain ⟨c, hc, hpc, hqc⟩ := hex
    rcases List.mem_cons.mp hc with rfl | hc'
    · simp [List.filter_cons, hpc, hqc]; omega
    · have ih' := ih hl ⟨c, hc', hpc, hqc⟩
      cases hq : q a
      · cases hp : p a <;> simp [List.filter_cons, hq, hp] <;> omega
      · simp [List.filter_cons, hq, ha hq]; omega

theorem scanRemovable_eq (w h : Int) (step : Nat) (out : Gray) :
    scanRemovable w h step out
      = (rowMajor 1 (w - 1) 1 (h - 1)).filter (fun xy => removable out step xy.1 xy.2) := by
  unfold scanRemovable
  have := foldl_append_if (fun xy : Int × Int => removable out step xy.1 xy.2) id
    (rowMajor 1 (w - 1) 1 (h - 1)) []
  simpa using this

theorem removable_pos {out : Gray} {step : Nat} {x y : Int}
    (h : removable out step x y = true) : 0 < out.GrayAt x y := by
  by_contra h0
  have hz : out.GrayAt x y = 0 := by omega
  unfold removable at h
  simp only [hz, if_true] at h
  exact absurd h (by decide)

theorem mem_scanRemovable_pos {w h : Int} {step : Nat} {out : Gray} {xy : Int × Int}
    (hm : xy ∈ scanRemovable w h step out) : 0 < out.GrayAt xy.1 xy.2 := by
  rw [scanRemovable_eq, List.mem_filter] at hm
  exact removable_pos hm.2

/-- The grid after a sub-iteration: the scanned pixels are cleared, the others
are kept. -/
theorem subIteration_spec (w h : Int) (step : Nat) {out : Gray} (wf : out.WF) :
    (subIteration w h step out).1.WF ∧
    (subIteration w h step out).1.Rect = out.Rect ∧
    ∀ x y, (subIteration w h step out).1.GrayAt x y
      = if (x, y) ∈ scanRemovable w h step out then 0 else out.GrayAt x y := by
  unfold subIteration
  simp only
  split
  · obtain ⟨h1, h2, h3⟩ := foldl_SetGray (fun _ => 0) (scanRemovable w h step out) out wf
    refine ⟨h1, h2, fun x y => ?_⟩
    rw [h3]
    by_cases hm : (x, y) ∈ scanRemovable w h step out
    · by_cases hc : out.Rect.contains x y = true
      · simp [hm, hc]
      · simp [hm, hc, GrayAt_outside hc]
    · simp [hm]
  · rename_i hlen
    have hnil : scanRemovable w h step out = [] := by
      cases hs : scanRemovable w h step out with
      | nil => rfl
      | cons a l => rw [hs] at hlen; simp at hlen
    refine ⟨wf, rfl, fun x y => ?_⟩
    simp [hnil]

theorem subIteration_unchanged (w h : Int) (step : Nat) (out : Gray)
    (hc : (subIteration w h step out).2 = false) :
    (subIteration w h step out).1 = out := by
  unfold subIteration at hc ⊢
  simp only at hc ⊢
  split
  · rename_i hlen; rw [if_pos hlen] at hc; simp at hc
  · rfl

theorem subIteration_foreground_le (w h : Int) (step : Nat) {out : Gray} (wf : out.WF) :
    foreground (subIteration w h step out).1 ≤ foreground out := by
  obtain ⟨_, h2, h3⟩ := subIteration_spec w h step wf
  unfold foreground
  rw [h2]
  apply filter_length_le
  intro a _ ha
  simp only [decide_eq_true_eq] at ha ⊢
  rw [h3] at ha
  split at ha
  · exact absurd ha (by decide)
  · exact ha

theorem subIteration_foreground_lt (w h : Int) (step : Nat) {out : Gray} (wf : out.WF)
    (hc : (subIteration w h step out).2 = true) :
    foreground (subIteration w h step out).1 < foreground out := by
  obtain ⟨_, h2, h3⟩ := subIteration_spec w h step wf
  have hne : ∃ a, a ∈ scanRemovable w h step out := by
    unfold subIteration at hc
    simp only at hc
    split at hc
    · rename_i hlen
      cases hs : scanRemovable w h step out with
      | nil => rw [hs] at hlen; simp at hlen
      | cons a l => exact ⟨a, List.mem_cons_self _ _⟩
    · simp at hc
  obtain ⟨a, ha⟩ := hne
  unfold foreground
  rw [h2]
  apply filter_length_lt
  · intro b _ hb
    simp only [decide_eq_true_eq] at hb ⊢
    rw [h3] at hb
    split at hb
    · exact absurd hb (by decide)
    · exact hb
  · have hpos := mem_scanRemovable_pos ha
    refine ⟨a, contains_iff_mem.mp (contains_of_pos hpos), by simpa using hpos, ?_⟩
    simp only [decide_eq_false_iff_not]
    rw [h3, if_pos ha]
    decide

theorem subIteration_binary (w h : Int) (step : Nat) {out : Gray} (wf : out.WF)
    (hb : out.Binary) : (subIteration w h step out).1.Binary := by
  intro x y
  rw [(subIteration_spec w h step wf).2.2]
  split
  · exact Or.inl rfl
  · exact hb x y

/-- The properties of one pass: no pixel is added, and a pass that sets
`changed` removes a foreground pixel. -/
theorem thinPass_spec (w h : Int) {out : Gray} (wf : out.WF) :
    (thinPass w h out).1.WF ∧ (thinPass w h out).1.Rect = out.Rect ∧
    (out.Binary → (thinPass w h out).1.Binary) ∧
    foreground (thinPass w h out).1 ≤ foreground out ∧
    ((thinPass w h out).2 = true → foreground (thinPass w h out).1 < foreground out) ∧
    ((thinPass w h out).2 = false → (thinPass w h out).1 = out) := by
  have s0 := subIteration_spec w h 0 wf
  have s1 := subIteration_spec w h 1 s0.1
  have l0 := subIteration_foreground_le w h 0 wf
  have l1 := subIteration_foreground_le w h 1 s0.1
  unfold thinPass
  simp only
  refine ⟨s1.1, by rw [s1.2.1, s0.2.1],
    fun hb => subIteration_binary w h 1 s0.1 (subIteration_binary w h 0 wf hb),
    le_trans l1 l0, ?_, ?_⟩
  · intro hc
    rcases Bool.or_eq_true _ _ |>.mp hc with h0 | h1
    · exact lt_of_le_of_lt l1 (subIteration_foreground_lt w h 0 wf h0)
    · exact lt_of_lt_of_le (subIteration_foreground_lt w h 1 s0.1 h1) l0
  · intro hc
    rw [Bool.or_eq_false_iff] at hc
    have e0 := subIteration_unchanged w h 0 out hc.1
    have e1 := subIteration_unchanged w h 1 _ hc.2
    rw [e1, e0]

/-- The pass loop terminates within one pass per foreground pixel and one
more, on a grid that the next pass would leave unchanged. -/
theorem thinLoop_terminates (w h : Int) :
    ∀ (fuel : Nat) (out : Gray), out.WF → foreground out < fuel →
      ∃ r n, thinLoop w h fuel out = some (r, n) ∧ n ≤ foreground out + 1 ∧ 1 ≤ n ∧
        r.WF ∧ r.Rect = out.Rect ∧ (out.Binary → r.Binary) ∧ thinPass w h r = (r, false) := by
  intro fuel
  induction fuel with
  | zero => intro out _ h; exact absurd h (by omega)
  | succ fuel ih =>
    intro out wf hf
    obtain ⟨p1, p2, p3, p4, p5, p6⟩ := thinPass_spec w h wf
    unfold thinLoop
    simp only
    by_cases hc : (thinPass w h out).2 = true
    · rw [if_pos hc]
      have hlt := p5 hc
      obtain ⟨r, n, e, hn, hn1, q1, q2, q3, q4⟩ := ih (thinPass w h out).1 p1 (by omega)
      refine ⟨r, n + 1, by rw [e]; rfl, by omega, by omega, q1, by rw [q2, p2],
        fun hb => q3 (p3 hb), q4⟩
    · rw [if_neg hc]
      have hc' : (thinPass w h out).2 = false := by simpa using hc
      have e := p6 hc'
      refine ⟨(thinPass w h out).1, 1, rfl, by omega, le_refl _, p1, p2, p3, ?_⟩
      rw [e]
      exact Prod.ext e hc'

theorem thinLoop_mono (w h : Int) :
    ∀ (fuel extra : Nat) (out : Gray) (v : Gray × Nat),
      thinLoop w h fuel out = some v → thinLoop w h (fuel + extra) out = some v := by
  intro fuel
  induction fuel with
  | zero => intro extra out v h; simp [thinLoop] at h
  | succ fuel ih =>
    intro extra out v h
    rw [Nat.add_right_comm]
    unfold thinLoop at h ⊢
    simp only at h ⊢
    split
    · rename_i hc
      rw [if_pos hc] at h
      rw [Option.map_eq_some'] at h
      obtain ⟨v', hv', e⟩ := h
      rw [ih extra _ v' hv']
      simp [e]
    · rename_i hc
      rw [if_neg hc] at h
      exact h

theorem binaryCopy_spec (img : Gray) :
    (binaryCopy img).WF ∧ (binaryCopy img).Rect = img.Rect ∧
    ∀ x y, (binaryCopy img).GrayAt x y = if img.GrayAt x y > 0 then 255 else 0 := by
  have hfun : (fun (out : Gray) (xy : Int × Int) =>
      if img.GrayAt xy.1 xy.2 > 0 then out.SetGray xy.1 xy.2 255 else out.SetGray xy.1 xy.2 0)
      = (fun out xy => out.SetGray xy.1 xy.2 (if img.GrayAt xy.1 xy.2 > 0 then 255 else 0)) := by
    funext out xy
    exact (apply_ite (fun v => out.SetGray xy.1 xy.2 v) _ 255 0).symm
  unfold binaryCopy
  simp only
  rw [hfun]
  obtain ⟨h1, h2, h3⟩ := foldl_SetGray (fun xy => if img.GrayAt xy.1 xy.2 > 0 then 255 else 0)
    (rowMajor img.Rect.minX img.Rect.maxX img.Rect.minY img.Rect.maxY) (NewGray img.Rect)
    (NewGray_WF _)
  refine ⟨h1, h2, fun x y => ?_⟩
  rw [h3, NewGray_GrayAt]
  have hr : (NewGray img.Rect).Rect = img.Rect := rfl
  rw [hr]
  by_cases hc : img.Rect.contains x y = true
  · simp [hc, contains_iff_mem.mp hc]
  · simp [hc, GrayAt_outside hc]

theorem binaryCopy_binary (img : Gray) : (binaryCopy img).Binary := by
  intro x y
  rw [(binaryCopy_spec img).2.2]
  split
  · exact Or.inr rfl
  · exact Or.inl rfl

theorem binaryCopy_foreground (img : Gray) : foreground (binaryCopy img) = foreground img := by
  obtain ⟨_, h2, h3⟩ := binaryCopy_spec img
  unfold foreground
  rw [h2]
  congr 1
  apply List.filter_congr
  intro a _
  rw [h3]
  by_cases h : img.GrayAt a.1 a.2 > 0 <;> simp [h]

theorem binaryCopy_fixed {g : Gray} (wf : g.WF) (hw : g.Rect.WellFormed) (hb : g.Binary) :
    binaryCopy g = g := by
  obtain ⟨h1, h2, h3⟩ := binaryCopy_spec g
  apply Gray.ext_of_GrayAt h1 wf h2 (by rw [h2]; exact hw)
  intro x y
  rw [h3]
  rcases hb x y with h | h <;> simp [h]

/-- The result of the pass loop of `GuoHallThinning` on every sufficient
fuel. -/
theorem GuoHallThinning_fuel (img : Gray) :
    ∃ n, 1 ≤ n ∧ n ≤ foreground img + 1 ∧
      (∀ extra, GuoHallThinningFuel (foreground img + 1 + extra) img
        = some (GuoHallThinning img, n)) ∧
      (GuoHallThinning img).WF ∧ (GuoHallThinning img).Rect = img.Rect ∧
      (GuoHallThinning img).Binary ∧
      thinPass img.Rect.maxX img.Rect.maxY (GuoHallThinning img)
        = (GuoHallThinning img, false) := by
  obtain ⟨c1, c2, _⟩ := binaryCopy_spec img
  obtain ⟨r, n, e, hn, hn1, q1, q2, q3, q4⟩ :=
    thinLoop_terminates img.Rect.maxX img.Rect.maxY (foreground img + 1) (binaryCopy img) c1
      (by rw [binaryCopy_foreground]; omega)
  have hT : GuoHallThinning img = r := by
    unfold GuoHallThinning GuoHallThinningFuel
    rw [e]
  rw [hT]
  refine ⟨n, hn1, by rw [binaryCopy_foreground] at hn; exact hn, fun extra => ?_, q1,
    by rw [q2, c2], q3 (binaryCopy_binary img), q4⟩
  unfold GuoHallThinningFuel
  exact thinLoop_mono _ _ _ extra _ _ e

theorem GuoHallThinning_fixed {g : Gray} (wf : g.WF) (hw : g.Rect.WellFormed) (hb : g.Binary)
    (hp : thinPass g.Rect.maxX g.Rect.maxY g = (g, false)) : GuoHallThinning g = g := by
  unfold GuoHallThinning GuoHallThinningFuel
  rw [binaryCopy_fixed wf hw hb]
  unfold thinLoop
  simp only [hp]
  rfl

/-! ## Path assembly: the partition law, segmentation and extraction -/

theorem BuildPaths_flatten (points : List Point) (h : points ≠ []) :
    (BuildPaths points).flatten
      = (buildLoop points points.length (initState points)).path := by
  have inv := pathInv_buildLoop points points.length _ (pathInv_init points h)
  have hlen : ¬ points.length = 0 := by
    intro h0; exact h (List.length_eq_zero.mp h0)
  unfold BuildPaths
  rw [if_neg hlen]
  simp only
  generalize buildLoop points points.length (initState points) = s at inv
  have hs : (0 :: (s.jumps ++ [s.path.length])).Pairwise (· ≤ ·) := by
    rw [List.pairwise_cons]
    refine ⟨fun a _ => Nat.zero_le a, ?_⟩
    rw [List.pairwise_append]
    refine ⟨inv.sorted.imp (fun h => Nat.le_of_lt h), by simp, ?_⟩
    intro a ha b hb
    simp at hb
    subst hb
    exact Nat.le_of_lt (inv.inside a ha).2
  rw [slicePaths_flatten s.path _ 0 hs]
  have hl : (0 :: (s.jumps ++ [s.path.length])).getLast (by simp) = s.path.length := by
    rw [List.getLast_cons (by simp)]
    simp
  rw [hl]
  simp

/-- C1. Partition law: the concatenation of the strokes of `BuildPaths`, in
order, is a permutation of the input list, so every point occurs in the output
exactly as many times as in the input. -/
theorem BuildPaths_partition (points : List Point) :
    (BuildPaths points).flatten.Perm points ∧
      ∀ p : Point, (BuildPaths points).flatten.count p = points.count p := by
  have hperm : (BuildPaths points).flatten.Perm points := by
    by_cases h : points = []
    · subst h
      simp [BuildPaths]
    · rw [BuildPaths_flatten points h]
      refine buildLoop_path_perm points points.length _ (pathInv_init points h) ?_
      omega
  exact ⟨hperm, fun p => hperm.count_eq p⟩

/-- C7. Segmentation example: on `[(0,0), (1,1), (10,10)]` the function
`BuildPaths` returns the two strokes `[(0,0), (1,1)]` and `[(10,10)]`. -/
theorem BuildPaths_segmentation_example :
    BuildPaths [⟨0, 0⟩, ⟨1, 1⟩, ⟨10, 10⟩] = [[⟨0, 0⟩, ⟨1, 1⟩], [⟨10, 10⟩]] := by
  decide!

theorem ExtractWhitePixels_eq (img : Gray) :
    ExtractWhitePixels img
      = ((rowMajor img.Rect.minX img.Rect.maxX img.Rect.minY img.Rect.maxY).filter
          (fun xy => decide (img.GrayAt xy.1 xy.2 > 128))).map (fun xy => ⟨xy.1, xy.2⟩) := by
  unfold ExtractWhitePixels
  have := foldl_append_if (fun xy : Int × Int => decide (img.GrayAt xy.1 xy.2 > 128))
    (fun xy => (⟨xy.1, xy.2⟩ : Point))
    (rowMajor img.Rect.minX img.Rect.maxX img.Rect.minY img.Rect.maxY) []
  simpa using this

theorem intRange_pairwise (lo hi : Int) : (intRange lo hi).Pairwise (· < ·) := by
  unfold intRange
  rw [List.pairwise_map]
  exact (List.pairwise_lt_range _).imp (fun h => by omega)

theorem rowMajor_pairwise (x0 x1 y0 y1 : Int) :
    (rowMajor x0 x1 y0 y1).Pairwise
      (fun a b => a.2 < b.2 ∨ (a.2 = b.2 ∧ a.1 < b.1)) := by
  unfold rowMajor
  rw [List.pairwise_flatMap]
  constructor
  · intro y _
    rw [List.pairwise_map]
    exact (intRange_pairwise x0 x1).imp (fun h => Or.inr ⟨rfl, h⟩)
  · refine (intRange_pairwise y0 y1).imp ?_
    intro y y' hlt a ha b hb
    simp only [List.mem_map] at ha hb
    obtain ⟨_, _, rfl⟩ := ha
    obtain ⟨_, _, rfl⟩ := hb
    exact Or.inl hlt

/-- C10. The function `ExtractWhitePixels` returns exactly the coordinates
inside the bounds whose pixel is above 128, in row-major order: the list is
strictly increasing in the order on `(y, x)`, hence free of duplicates. -/
theorem ExtractWhitePixels_spec (img : Gray) :
    (∀ p : Point, p ∈ ExtractWhitePixels img ↔
      (img.Rect.contains p.X p.Y = true ∧ 128 < img.GrayAt p.X p.Y)) ∧
    (ExtractWhitePixels img).Pairwise rowMajorLt ∧
    (ExtractWhitePixels img).Nodup := by
  have hsorted : (ExtractWhitePixels img).Pairwise rowMajorLt := by
    rw [ExtractWhitePixels_eq, List.pairwise_map]
    exact ((rowMajor_pairwise _ _ _ _).filter _).imp (fun h => h)
  refine ⟨fun p => ?_, hsorted, ?_⟩
  · rw [ExtractWhitePixels_eq]
    simp only [List.mem_map, List.mem_filter, decide_eq_true_eq]
    constructor
    · rintro ⟨xy, ⟨h1, h2⟩, rfl⟩
      exact ⟨contains_iff_mem.mpr h1, h2⟩
    · rintro ⟨h1, h2⟩
      exact ⟨(p.X, p.Y), ⟨contains_iff_mem.mp h1, h2⟩, rfl⟩
  · refine hsorted.imp ?_
    intro a b h e
    subst e
    unfold rowMajorLt at h
    omega

/-! ## Thinning: idempotence, termination and the filled square -/

/-- C2. Thinning idempotence: on every mask over a well-formed rectangle
(in particular one whose bounds start at the origin) thinning the skeleton
again returns the same grid, pixel for pixel. -/
theorem GuoHallThinning_idempotent (img : Gray) (hw : img.Rect.WellFormed) :
    GuoHallThinning (GuoHallThinning img) = GuoHallThinning img ∧
      ∀ x y, (GuoHallThinning (GuoHallThinning img)).GrayAt x y
        = (GuoHallThinning img).GrayAt x y := by
  obtain ⟨n, _, _, _, wf, hr, hb, hp⟩ := GuoHallThinning_fuel img
  have e : GuoHallThinning (GuoHallThinning img) = GuoHallThinning img :=
    GuoHallThinning_fixed wf (by rw [hr]; exact hw) hb (by rw [hr]; exact hp)
  exact ⟨e, fun x y => by rw [e]⟩

/-- The idempotence theorem applied to the filled 8x8 square. -/
theorem GuoHallThinning_idempotent_witness :
    filledSquare.Rect.WellFormed ∧
      GuoHallThinning (GuoHallThinning filledSquare) = GuoHallThinning filledSquare :=
  ⟨⟨by decide, by decide⟩, (GuoHallThinning_idempotent filledSquare ⟨by decide, by decide⟩).1⟩

/-- C3. Thinning termination: the pass loop of `GuoHallThinning` terminates,
after at least one and at most `foreground + 1` passes, whatever fuel above
that bound it is given. -/
theorem GuoHallThinning_terminates (img : Gray) :
    ∃ passes, 1 ≤ passes ∧ passes ≤ foreground img + 1 ∧
      ∀ extra, GuoHallThinningFuel (foreground img + 1 + extra) img
        = some (GuoHallThinning img, passes) := by
  obtain ⟨n, h1, h2, h3, _⟩ := GuoHallThinning_fuel img
  exact ⟨n, h1, h2, h3⟩

/-- The skeleton of the filled 8x8 square, by evaluation. -/
theorem thin_filledSquare : GuoHallThinning filledSquare = singlePixel := by
  decide!

theorem singlePixel_GrayAt (x y : Int) :
    singlePixel.GrayAt x y = if x = 4 ∧ y = 4 then 255 else 0 := by
  unfold Gray.GrayAt
  by_cases hc : singlePixel.Rect.contains x y = true
  · rw [if_pos hc]
    have hb := contains_iff.mp hc
    simp only [singlePixel] at hb
    have hoff : singlePixel.PixOffset x y = (y * 10 + x).toNat := by
      simp [Gray.PixOffset, singlePixel]
    rw [hoff]
    simp only [singlePixel, List.getD_eq_getElem?_getD, List.getElem?_set,
      List.getElem?_replicate]
    by_cases h : x = 4 ∧ y = 4
    · obtain ⟨rfl, rfl⟩ := h
      decide
    · have hne : ¬ (44 = (y * 10 + x).toNat) := by omega
      simp only [hne, h, if_false]
      split <;> rfl
  · rw [if_neg hc]
    have : ¬ (x = 4 ∧ y = 4) := by
      rintro ⟨rfl, rfl⟩
      exact hc (by decide)
    simp [this]

theorem singlePixel_pos_iff (x y : Int) : 0 < singlePixel.GrayAt x y ↔ x = 4 ∧ y = 4 := by
  rw [singlePixel_GrayAt]
  by_cases h : x = 4 ∧ y = 4 <;> simp [h]

/-- C4, as stated, fails: the skeleton of the filled square keeps the pixel
`(4, 4)`, which has no foreground neighbour, so not every remaining pixel has
between 1 and 2 of them. -/
theorem filledSquare_claim_fails :
    ¬ (Connected8 (GuoHallThinning filledSquare) ∧
        (∃ x y, 0 < (GuoHallThinning filledSquare).GrayAt x y) ∧
        ∀ x y, 0 < (GuoHallThinning filledSquare).GrayAt x y →
          1 ≤ fgNeighbours (GuoHallThinning filledSquare) x y ∧
            fgNeighbours (GuoHallThinning filledSquare) x y ≤ 2) := by
  rw [thin_filledSquare]
  rintro ⟨_, _, h⟩
  have := (h 4 4 (by decide)).1
  revert this
  decide

/-- C4, amended. The skeleton of the filled 8x8 square is 8-connected,
contains a foreground pixel, and every remaining foreground pixel has at most
2 foreground neighbours: the skeleton is the single pixel `(4, 4)`, which has
none. -/
theorem filledSquare_skeleton :
    Connected8 (GuoHallThinning filledSquare) ∧
      (∃ x y, 0 < (GuoHallThinning filledSquare).GrayAt x y) ∧
      (∀ x y, 0 < (GuoHallThinning filledSquare).GrayAt x y →
        fgNeighbours (GuoHallThinning filledSquare) x y ≤ 2) ∧
      (∀ x y, 0 < (GuoHallThinning filledSquare).GrayAt x y ↔ x = 4 ∧ y = 4) ∧
      fgNeighbours (GuoHallThinning filledSquare) 4 4 = 0 := by
  rw [thin_filledSquare]
  refine ⟨?_, ⟨4, 4, by decide⟩, ?_, singlePixel_pos_iff, by decide⟩
  · intro p q hp hq
    have ep := (singlePixel_pos_iff _ _).mp hp
    have eq := (singlePixel_pos_iff _ _).mp hq
    have hpq : p = q := by
      cases p; cases q
      simp only at ep eq
      simp [ep.1, ep.2, eq.1, eq.2]
    subst hpq
    exact ⟨[p], rfl, rfl, fun c hc => by simp at hc; subst hc; exact hp, List.chain'_singleton _⟩
  · intro x y h
    obtain ⟨rfl, rfl⟩ := (singlePixel_pos_iff _ _).mp h
    decide

/-! ## Binarization: `Threshold` and `EdgeDetection` -/

theorem Threshold_spec (img : Image) (t : Nat) (invert : Bool) (x y : Int) :
    (Threshold img t invert).GrayAt x y
      = if img.Bounds.contains x y = true then
          (if (if invert then 255 - grayVal (img.At x y) else grayVal (img.At x y)) > t
            then 255 else 0)
        else 0 := by
  have hfun : (fun (gray : Gray) (xy : Int × Int) =>
      let v := grayVal (img.At xy.1 xy.2)
      let v := if invert then 255 - v else v
      if v > t then gray.SetGray xy.1 xy.2 255 else gray.SetGray xy.1 xy.2 0)
      = (fun gray xy => gray.SetGray xy.1 xy.2
          ((fun xy : Int × Int =>
            if (if invert then 255 - grayVal (img.At xy.1 xy.2)
                else grayVal (img.At xy.1 xy.2)) > t then 255 else 0) xy)) := by
    funext gray xy
    exact (apply_ite (fun v => gray.SetGray xy.1 xy.2 v) _ 255 0).symm
  unfold Threshold
  simp only
  rw [hfun]
  rw [(foldl_SetGray _ _ _ (NewGray_WF img.Bounds)).2.2, NewGray_GrayAt]
  have hr : (NewGray img.Bounds).Rect = img.Bounds := rfl
  rw [hr]
  by_cases hc : img.Bounds.contains x y = true
  · simp [hc, contains_iff_mem.mp hc]
  · simp [hc]

/-- C6. Threshold example: the 1x1 image with `R = G = B = 128` becomes a
foreground pixel for `t = 76` and a background pixel for `t = 128`. -/
theorem Threshold_example :
    (Threshold grey128 76 false).GrayAt 0 0 = 255 ∧
      (Threshold grey128 128 false).GrayAt 0 0 = 0 ∧
      Threshold grey128 76 false = ⟨[255], 1, ⟨0, 0, 1, 1⟩⟩ ∧
      Threshold grey128 128 false = ⟨[0], 1, ⟨0, 0, 1, 1⟩⟩ := by
  decide

theorem grayVal_eight_bit {R G B a : Nat} (hR : R ≤ 255) (hG : G ≤ 255) (hB : B ≤ 255) :
    grayVal ⟨257 * R, 257 * G, 257 * B, a⟩
      = (257 * (299 * R + 587 * G + 114 * B) + 500) / 1000 / 256 := by
  unfold grayVal
  have h1 : 257 * R * 299 + 257 * G * 587 + 257 * B * 114 + 500
      = 257 * (299 * R + 587 * G + 114 * B) + 500 := by ring
  have h2 : 257 * (299 * R + 587 * G + 114 * B) + 500 < 2 ^ 32 := by omega
  have h3 : (257 * (299 * R + 587 * G + 114 * B) + 500) / 1000 / 256 < 256 := by omega
  simp only [Nat.shiftRight_eq_div_pow]
  rw [h1, Nat.mod_eq_of_lt h2]
  exact Nat.mod_eq_of_lt h3

/-- C5, as stated, fails: for the opaque pixel `R = 0, G = 1, B = 0` and
`t = 0` the rounded luminance of the claim is `1 > 0`, a foreground pixel,
but `Threshold` computes luminance `0` and writes background. -/
theorem Threshold_rounding_fails :
    greenDot.At 0 0 = ⟨257 * 0, 257 * 1, 257 * 0, 65535⟩ ∧
      (Threshold greenDot 0 false).GrayAt 0 0 = 0 ∧
      (if specLuminance 0 1 0 > 0 then 255 else 0) = 255 := by
  decide

/-- C5, amended. For a pixel inside the bounds whose colour reports
`257 R, 257 G, 257 B` with 8-bit `R, G, B`, `Threshold` writes foreground (255)
exactly when `Y' > t` and background (0) otherwise, where
`Y = ((257 (299 R + 587 G + 114 B) + 500) / 1000) / 256` with integer
divisions, and `Y' = 255 - Y` if `invert`, else `Y`. -/
theorem Threshold_pixel (img : Image) (x y : Int) (R G B a t : Nat) (invert : Bool)
    (hin : img.Bounds.contains x y = true) (hR : R ≤ 255) (hG : G ≤ 255) (hB : B ≤ 255)
    (hc : img.At x y = ⟨257 * R, 257 * G, 257 * B, a⟩) :
    (Threshold img t invert).GrayAt x y
      = if (if invert then 255 - (257 * (299 * R + 587 * G + 114 * B) + 500) / 1000 / 256
            else (257 * (299 * R + 587 * G + 114 * B) + 500) / 1000 / 256) > t
        then 255 else 0 := by
  rw [Threshold_spec, if_pos hin, hc, grayVal_eight_bit hR hG hB]

/-- The pixel formula applied to the pixel `R = 0, G = 1, B = 0` with
`t = 0` and inversion. -/
theorem Threshold_pixel_witness :
    (Threshold greenDot 0 true).GrayAt 0 0
      = if (if true then 255 - (257 * (299 * 0 + 587 * 1 + 114 * 0) + 500) / 1000 / 256
            else (257 * (299 * 0 + 587 * 1 + 114 * 0) + 500) / 1000 / 256) > 0
        then 255 else 0 :=
  Threshold_pixel greenDot 0 0 0 1 0 65535 0 true (by decide) (by decide) (by decide)
    (by decide) (by decide)

theorem luminanceImage_spec (img : Image) :
    (luminanceImage img).WF ∧ (luminanceImage img).Rect = img.Bounds ∧
    ∀ x y, (luminanceImage img).GrayAt x y
      = if img.Bounds.contains x y = true then grayVal (img.At x y) else 0 := by
  unfold luminanceImage
  simp only
  obtain ⟨h1, h2, h3⟩ := foldl_SetGray (fun xy => grayVal (img.At xy.1 xy.2))
    (rowMajor img.Bounds.minX img.Bounds.maxX img.Bounds.minY img.Bounds.maxY)
    (NewGray img.Bounds) (NewGray_WF _)
  refine ⟨h1, h2, fun x y => ?_⟩
  rw [h3, NewGray_GrayAt]
  have hr : (NewGray img.Bounds).Rect = img.Bounds := rfl
  rw [hr]
  by_cases hc : img.Bounds.contains x y = true
  · simp [hc, contains_iff_mem.mp hc]
  · simp [hc]

/-- The pixel written by `EdgeDetection`: the thresholded magnitude at the
coordinates of the Sobel loop that lie inside the bounds, zero elsewhere. -/
theorem EdgeDetection_spec (img : Image) (threshold : Int) (x y : Int) :
    (EdgeDetection img threshold).GrayAt x y
      = if ((1 ≤ x ∧ x < img.Bounds.Dx - 1) ∧ (1 ≤ y ∧ y < img.Bounds.Dy - 1)) ∧
            img.Bounds.contains x y = true then
          (if magnitudeAbove
              ((sobelSums (luminanceImage img) x y).1 * (sobelSums (luminanceImage img) x y).1
                + (sobelSums (luminanceImage img) x y).2 * (sobelSums (luminanceImage img) x y).2)
              threshold = true then 255 else 0)
        else 0 := by
  unfold EdgeDetection
  simp only
  have key := (foldl_SetGray (fun xy : Int × Int =>
      if magnitudeAbove
          ((sobelSums (luminanceImage img) xy.1 xy.2).1 * (sobelSums (luminanceImage img) xy.1 xy.2).1
            + (sobelSums (luminanceImage img) xy.1 xy.2).2
              * (sobelSums (luminanceImage img) xy.1 xy.2).2)
          threshold = true then 255 else 0)
    (rowMajor 1 (img.Bounds.Dx - 1) 1 (img.Bounds.Dy - 1)) (NewGray img.Bounds)
    (NewGray_WF img.Bounds)).2.2 x y
  have hr : (NewGray img.Bounds).Rect = img.Bounds := rfl
  rw [key, NewGray_GrayAt]
  simp only [hr, mem_rowMajor]

theorem sobelSums_flat (src : Gray) (x y : Int) (c : Nat)
    (h : ∀ kx ky : Int, -1 ≤ kx → kx ≤ 1 → -1 ≤ ky → ky ≤ 1 →
      src.GrayAt (x + kx) (y + ky) = c) :
    sobelSums src x y = (0, 0) := by
  have hl : rowMajor (-1) 2 (-1) 2
      = [(-1, -1), (0, -1), (1, -1), (-1, 0), (0, 0), (1, 0), (-1, 1), (0, 1), (1, 1)] := by
    decide
  unfold sobelSums
  rw [hl]
  simp only [List.foldl_cons, List.foldl_nil]
  rw [h (-1) (-1) (by decide) (by decide) (by decide) (by decide),
    h 0 (-1) (by decide) (by decide) (by decide) (by decide),
    h 1 (-1) (by decide) (by decide) (by decide) (by decide),
    h (-1) 0 (by decide) (by decide) (by decide) (by decide),
    h 0 0 (by decide) (by decide) (by decide) (by decide),
    h 1 0 (by decide) (by decide) (by decide) (by decide),
    h (-1) 1 (by decide) (by decide) (by decide) (by decide),
    h 0 1 (by decide) (by decide) (by decide) (by decide),
    h 1 1 (by decide) (by decide) (by decide) (by decide)]
  have gx0 : kernelAt gx (-1 + 1) (-1 + 1) = -1 := by decide
  have gx1 : kernelAt gx (-1 + 1) (0 + 1) = 0 := by decide
  have gx2 : kernelAt gx (-1 + 1) (1 + 1) = 1 := by decide
  have gx3 : kernelAt gx (0 + 1) (-1 + 1) = -2 := by decide
  have gx4 : kernelAt gx (0 + 1) (0 + 1) = 0 := by decide
  have gx5 : kernelAt gx (0 + 1) (1 + 1) = 2 := by decide
  have gx6 : kernelAt gx (1 + 1) (-1 + 1) = -1 := by decide
  have gx7 : kernelAt gx (1 + 1) (0 + 1) = 0 := by decide
  have gx8 : kernelAt gx (1 + 1) (1 + 1) = 1 := by decide
  have gy0 : kernelAt gy (-1 + 1) (-1 + 1) = -1 := by decide
  have gy1 : kernelAt gy (-1 + 1) (0 + 1) = -2 := by decide
  have gy2 : kernelAt gy (-1 + 1) (1 + 1) = -1 := by decide
  have gy3 : kernelAt gy (0 + 1) (-1 + 1) = 0 := by decide
  have gy4 : kernelAt gy (0 + 1) (0 + 1) = 0 := by decide
  have gy5 : kernelAt gy (0 + 1) (1 + 1) = 0 := by decide
  have gy6 : kernelAt gy (1 + 1) (-1 + 1) = 1 := by decide
  have gy7 : kernelAt gy (1 + 1) (0 + 1) = 2 := by decide
  have gy8 : kernelAt gy (1 + 1) (1 + 1) = 1 := by decide
  rw [gx0, gx1, gx2, gx3, gx4, gx5, gx6, gx7, gx8, gy0, gy1, gy2, gy3, gy4, gy5, gy6, gy7, gy8]
  refine Prod.ext ?_ ?_ <;> simp only <;> ring

/-- C8, as stated, fails twice.  On the flat 3x3 image at the origin a negative
threshold makes the centre pixel foreground (the zero magnitude exceeds it);
and on the flat 3x3 image whose bounds start at `(1, 1)` the threshold `0`
makes the pixel `(1, 1)` foreground, the Sobel loop addressing the window
relative to the origin. -/
theorem EdgeDetection_flat_fails :
    ((∀ x y, grayVal ((flatImage ⟨0, 0, 3, 3⟩ 7).At x y) = 7) ∧
      (EdgeDetection (flatImage ⟨0, 0, 3, 3⟩ 7) (-1)).GrayAt 1 1 = 255) ∧
    ((∀ x y, grayVal ((flatImage ⟨1, 1, 4, 4⟩ 7).At x y) = 7) ∧
      (EdgeDetection (flatImage ⟨1, 1, 4, 4⟩ 7) 0).GrayAt 1 1 = 255) := by
  have hflat : grayVal ⟨257 * 7, 257 * 7, 257 * 7, 65535⟩ = 7 := by decide
  exact ⟨⟨fun _ _ => hflat, by decide!⟩, ⟨fun _ _ => hflat, by decide!⟩⟩

/-- C8, amended. For every image whose bounds start at the origin and whose
pixels all have the same luminance, and for every threshold that is not
negative, `EdgeDetection` returns a mask in which every pixel is
background (0). -/
theorem EdgeDetection_flat (img : Image) (threshold : Int) (c : Nat) (x y : Int)
    (horigin : img.Bounds.minX = 0 ∧ img.Bounds.minY = 0)
    (hflat : ∀ u v, img.Bounds.contains u v = true → grayVal (img.At u v) = c)
    (ht : 0 ≤ threshold) :
    (EdgeDetection img threshold).GrayAt x y = 0 := by
  rw [EdgeDetection_spec]
  split
  · rename_i hin
    obtain ⟨⟨⟨hx1, hx2⟩, hy1, hy2⟩, _⟩ := hin
    unfold Rectangle.Dx at hx2
    unfold Rectangle.Dy at hy2
    rw [horigin.1] at hx2
    rw [horigin.2] at hy2
    have hs : sobelSums (luminanceImage img) x y = (0, 0) := by
      apply sobelSums_flat _ _ _ c
      intro kx ky h1 h2 h3 h4
      have hc : img.Bounds.contains (x + kx) (y + ky) = true := by
        rw [contains_iff, horigin.1, horigin.2]
        omega
      rw [(luminanceImage_spec img).2.2, if_pos hc]
      exact hflat _ _ hc
    rw [hs]
    have hm : magnitudeAbove 0 threshold = false := by
      unfold magnitudeAbove
      have h1 : ¬ threshold < 0 := by omega
      have h2 : ¬ threshold * threshold < 0 := not_lt.mpr (mul_self_nonneg threshold)
      simp only [h1, h2, decide_False, Bool.or_false]
    simp [hm]
  · rfl

/-- The flat-image theorem applied to the centre of a flat 3x3 image at
threshold 0. -/
theorem EdgeDetection_flat_witness :
    (EdgeDetection (flatImage ⟨0, 0, 3, 3⟩ 7) 0).GrayAt 1 1 = 0 :=
  EdgeDetection_flat (flatImage ⟨0, 0, 3, 3⟩ 7) 0 7 1 1 ⟨rfl, rfl⟩
    (fun _ _ _ => (by decide : grayVal ⟨257 * 7, 257 * 7, 257 * 7, 65535⟩ = 7)) (by decide)

/-- C9. Edge detection border policy: when the bounds start at the origin,
every pixel of the result on the one-pixel border (`x = 0`, `x = width - 1`,
`y = 0` or `y = height - 1`) is background (0), for every input and every
threshold. -/
theorem EdgeDetection_border (img : Image) (threshold : Int) (x y : Int)
    (horigin : img.Bounds.minX = 0 ∧ img.Bounds.minY = 0)
    (hborder : x = img.Bounds.minX ∨ x = img.Bounds.maxX - 1 ∨
      y = img.Bounds.minY ∨ y = img.Bounds.maxY - 1) :
    (EdgeDetection img threshold).GrayAt x y = 0 := by
  rw [EdgeDetection_spec]
  split
  · rename_i hin
    obtain ⟨⟨⟨hx1, hx2⟩, hy1, hy2⟩, _⟩ := hin
    unfold Rectangle.Dx at hx2
    unfold Rectangle.Dy at hy2
    omega
  · rfl

/-- The border theorem applied to the left and right border of a 3x3 image
with a vertical edge, whose centre pixel is detected. -/
theorem EdgeDetection_border_witness :
    (EdgeDetection edgeImage 100).GrayAt 1 1 = 255 ∧
      (EdgeDetection edgeImage 100).GrayAt 0 1 = 0 ∧
      (EdgeDetection edgeImage 100).GrayAt 2 1 = 0 :=
  ⟨by decide!,
    EdgeDetection_border edgeImage 100 0 1 ⟨rfl, rfl⟩ (Or.inl rfl),
    EdgeDetection_border edgeImage 100 2 1 ⟨rfl, rfl⟩ (Or.inr (Or.inl (by decide)))⟩


/-! ## Lemmas on the machine arithmetic of path.go -/

theorem log2Aux_spec :
    ∀ (fuel n : Nat), n ≤ fuel → n ≠ 0 →
      2 ^ log2Aux fuel n ≤ n ∧ n < 2 ^ (log2Aux fuel n + 1) := by
  intro fuel
  induction fuel with
  | zero => intro n h0 hn; omega
  | succ fuel ih =>
    intro n hle hn
    unfold log2Aux
    by_cases h2 : n ≥ 2
    · rw [if_pos h2]
      obtain ⟨ih1, ih2⟩ := ih (n / 2) (by omega) (by omega)
      rw [pow_succ] at ih2 ⊢
      rw [pow_succ]
      constructor <;> omega
    · rw [if_neg h2]
      have : n = 1 := by omega
      subst this
      decide

theorem log2_spec (n : Nat) (hn : n ≠ 0) : 2 ^ log2 n ≤ n ∧ n < 2 ^ (log2 n + 1) :=
  log2Aux_spec n n (le_refl n) hn

theorem log2_zero : log2 0 = 0 := rfl

theorem log2_lt_of_lt_pow {n k : Nat} (h : n < 2 ^ k) : log2 n < k ∨ log2 n = 0 := by
  by_cases hn : n = 0
  · right; rw [hn]; rfl
  · left
    have h1 := (log2_spec n hn).1
    exact (Nat.pow_lt_pow_iff_right (by decide : 1 < 2)).mp (lt_of_le_of_lt h1 h)

theorem isqrtAux_spec (n : Nat) :
    ∀ (k r : Nat), r * r ≤ n → n < (r + 2 ^ k) * (r + 2 ^ k) →
      isqrtAux n k r * isqrtAux n k r ≤ n ∧ n < (isqrtAux n k r + 1) * (isqrtAux n k r + 1) := by
  intro k
  induction k with
  | zero => intro r h1 h2; simpa [isqrtAux] using ⟨h1, h2⟩
  | succ k ih =>
    intro r h1 h2
    unfold isqrtAux
    split
    · rename_i h
      apply ih _ h
      have e : r + 2 ^ k + 2 ^ k = r + 2 ^ (k + 1) := by rw [pow_succ]; omega
      rw [e]
      exact h2
    · rename_i h
      exact ih _ h1 (not_le.mp h)

/-- The function `isqrt` is the integer square root. -/
theorem isqrt_spec (n : Nat) : isqrt n * isqrt n ≤ n ∧ n < (isqrt n + 1) * (isqrt n + 1) := by
  unfold isqrt
  apply isqrtAux_spec n _ 0 (Nat.zero_le _)
  rw [Nat.zero_add, ← pow_add]
  by_cases hn : n = 0
  · rw [hn]; exact pow_pos (by decide) _
  · refine lt_of_lt_of_le (log2_spec n hn).2 (Nat.pow_le_pow_right (by decide) ?_)
    omega

theorem isqrt_le_of_sq_le {n a : Nat} (h : a * a ≤ n) : a ≤ isqrt n := by
  by_contra hlt
  have h1 : isqrt n + 1 ≤ a := by omega
  have h2 := Nat.mul_le_mul h1 h1
  have h3 := (isqrt_spec n).2
  omega

theorem isqrt_lt_of_lt_sq {n a : Nat} (h : n < a * a) : isqrt n < a := by
  by_contra hge
  have h1 : a ≤ isqrt n := by omega
  have h2 := Nat.mul_le_mul h1 h1
  have h3 := (isqrt_spec n).1
  omega

theorem round53_of_log2_le (s : Nat) (sticky : Bool) (h : log2 s ≤ 52) :
    round53 s sticky = s := by
  unfold round53
  simp only
  rw [if_pos (by omega)]

theorem round53_small (s : Nat) (sticky : Bool) (h : s < 2 ^ 53) : round53 s sticky = s := by
  apply round53_of_log2_le
  rcases log2_lt_of_lt_pow h with h1 | h1 <;> omega

/-- Rounding moves a number by at most half a unit of its last kept bit. -/
theorem round53_bounds (s : Nat) (sticky : Bool) :
    round53 s sticky ≤ s + 2 ^ (log2 s - 52) / 2 ∧
      s ≤ round53 s sticky + 2 ^ (log2 s - 52) / 2 := by
  unfold round53
  simp only
  by_cases h0 : log2 s - 52 = 0
  · rw [if_pos h0]
    exact ⟨Nat.le_add_right _ _, Nat.le_add_right _ _⟩
  · rw [if_neg h0]
    obtain ⟨t, ht⟩ : ∃ t, log2 s - 52 = t + 1 := ⟨log2 s - 52 - 1, by omega⟩
    rw [ht]
    simp only [Nat.add_sub_cancel]
    have hT : 2 ^ (t + 1) = 2 * 2 ^ t := by rw [pow_succ]; omega
    have hdm := Nat.div_add_mod s (2 ^ (t + 1))
    have hmod := Nat.mod_lt s (pow_pos (by decide : 0 < 2) (t + 1))
    have hq : (s / 2 ^ (t + 1) + 1) * 2 ^ (t + 1)
        = 2 ^ (t + 1) * (s / 2 ^ (t + 1)) + 2 ^ (t + 1) := by ring
    have hq' : s / 2 ^ (t + 1) * 2 ^ (t + 1) = 2 ^ (t + 1) * (s / 2 ^ (t + 1)) := by ring
    split
    · rename_i hup
      rw [hq]
      have hr : 2 ^ t ≤ s % 2 ^ (t + 1) := by
        rcases hup with h | ⟨h, _⟩ <;> omega
      constructor <;> omega
    · rename_i hdown
      rw [hq']
      have hr : s % 2 ^ (t + 1) ≤ 2 ^ t := by
        by_contra hgt
        exact hdown (Or.inl (by omega))
      constructor <;> omega

theorem round53_gt_one (n : Nat) : 1 < round53 n false ↔ 1 < n := by
  by_cases h : log2 n ≤ 52
  · rw [round53_of_log2_le n false h]
  · have hn : n ≠ 0 := by
      intro h0; rw [h0, log2_zero] at h; omega
    have h1 := (log2_spec n hn).1
    have h2 := (round53_bounds n false).2
    obtain ⟨t, ht⟩ : ∃ t, log2 n = t + 53 := ⟨log2 n - 53, by omega⟩
    have e1 : log2 n - 52 = t + 1 := by omega
    rw [e1] at h2
    rw [ht] at h1
    have hp : 2 ^ (t + 53) = 2 ^ 53 * 2 ^ t := by rw [pow_add]; ring
    have hq : 2 ^ (t + 1) = 2 * 2 ^ t := by rw [pow_succ]; omega
    have hpos : 0 < 2 ^ t := pow_pos (by decide) t
    rw [hp] at h1
    rw [hq] at h2
    norm_num at h1
    constructor <;> intro _ <;> omega

/-- The rounded square root is strictly increasing below `2 ^ 51`. -/
theorem floatSqrt_lt {x y : Nat} (hxy : x < y) (hy : y < 2 ^ 51) :
    floatSqrt x < floatSqrt y := by
  have hB : ∀ z, z < 2 ^ 51 → isqrt (z * 2 ^ 106) < 427419822500504607534271 := by
    intro z hz
    apply isqrt_lt_of_lt_sq
    have : z * 2 ^ 106 ≤ (2 ^ 51 - 1) * 2 ^ 106 := Nat.mul_le_mul_right _ (by omega)
    refine lt_of_le_of_lt this ?_
    norm_num
  have hround : ∀ (z : Nat) (st : Bool), z < 427419822500504607534271 →
      2 ^ (log2 z - 52) / 2 ≤ 2 ^ 25 := by
    intro z st hz
    have hz79 : z < 2 ^ 79 := lt_trans hz (by norm_num)
    have hl : log2 z - 52 ≤ 26 := by
      rcases log2_lt_of_lt_pow hz79 with h | h <;> omega
    have := Nat.pow_le_pow_right (by decide : 0 < 2) hl
    have e : (2 : Nat) ^ 26 / 2 = 2 ^ 25 := by norm_num
    rw [← e]
    exact Nat.div_le_div_right this
  have hx51 : x < 2 ^ 51 := lt_trans hxy hy
  have hSx := hB x hx51
  have hSy := hB y hy
  have hstep : isqrt (x * 2 ^ 106) + (2 ^ 26 + 1) ≤ isqrt (y * 2 ^ 106) := by
    apply isqrt_le_of_sq_le
    have h1 := (isqrt_spec (x * 2 ^ 106)).1
    have h2 : (x + 1) * 2 ^ 106 ≤ y * 2 ^ 106 := Nat.mul_le_mul_right _ (by omega)
    have h3 : (isqrt (x * 2 ^ 106) + (2 ^ 26 + 1)) * (isqrt (x * 2 ^ 106) + (2 ^ 26 + 1))
        = isqrt (x * 2 ^ 106) * isqrt (x * 2 ^ 106)
          + 2 * (2 ^ 26 + 1) * isqrt (x * 2 ^ 106) + (2 ^ 26 + 1) * (2 ^ 26 + 1) := by ring
    have h4 : 2 * (2 ^ 26 + 1) * isqrt (x * 2 ^ 106)
        ≤ 2 * (2 ^ 26 + 1) * 427419822500504607534270 :=
      Nat.mul_le_mul_left _ (by omega)
    have h5 : (x + 1) * 2 ^ 106 = x * 2 ^ 106 + 2 ^ 106 := by ring
    rw [h3]
    norm_num at h1 h2 h4 h5 ⊢
    omega
  unfold floatSqrt
  simp only
  have bx := (round53_bounds (isqrt (x * 2 ^ 106))
    (decide (isqrt (x * 2 ^ 106) * isqrt (x * 2 ^ 106) ≠ x * 2 ^ 106))).1
  have by' := (round53_bounds (isqrt (y * 2 ^ 106))
    (decide (isqrt (y * 2 ^ 106) * isqrt (y * 2 ^ 106) ≠ y * 2 ^ 106))).2
  have rx := hround _ false hSx
  have ry := hround _ false hSy
  have e25 : (2 : Nat) ^ 25 = 33554432 := by norm_num
  have e26 : (2 : Nat) ^ 26 + 1 = 67108865 := by norm_num
  rw [e25] at rx ry
  rw [e26] at hstep
  generalize isqrt (x * 2 ^ 106) = sx at *
  generalize isqrt (y * 2 ^ 106) = sy at *
  generalize 2 ^ (log2 sx - 52) / 2 = ex at *
  generalize 2 ^ (log2 sy - 52) / 2 = ey at *
  omega

theorem floatSqrt_lt_iff {x y : Nat} (hx : x < 2 ^ 51) (hy : y < 2 ^ 51) :
    floatSqrt x < floatSqrt y ↔ x < y := by
  constructor
  · intro h
    by_contra hge
    rcases Nat.lt_or_eq_of_le (not_lt.mp hge) with h1 | h1
    · exact absurd (floatSqrt_lt h1 hx) (by omega)
    · rw [h1] at h; exact absurd h (lt_irrefl _)
  · intro h; exact floatSqrt_lt h hy

theorem floatSqrt_eq_iff {x y : Nat} (hx : x < 2 ^ 51) (hy : y < 2 ^ 51) :
    floatSqrt x = floatSqrt y ↔ x = y := by
  constructor
  · intro h
    rcases Nat.lt_trichotomy x y with h1 | h1 | h1
    · exact absurd h (ne_of_lt (floatSqrt_lt h1 hy))
    · exact h1
    · exact absurd h.symm (ne_of_lt (floatSqrt_lt h1 hx))
  · intro h; rw [h]

theorem wrap64_eq {x : Int} (h1 : -2 ^ 63 ≤ x) (h2 : x < 2 ^ 63) : wrap64 x = x := by
  unfold wrap64
  norm_num at h1 h2 ⊢
  omega

theorem floatAbs_small {d : Int} (h : d.natAbs < 2 ^ 53) : floatAbs d = d.natAbs :=
  round53_small _ _ h

theorem floatAbs_gt_one (d : Int) : 1 < floatAbs d ↔ 1 < |d| := by
  unfold floatAbs
  rw [round53_gt_one, Int.abs_eq_natAbs]
  omega

/-- Where no difference of coordinates wraps, `nextToEachOther` is the
8-adjacency of the specification. -/
theorem nextToEachOther_iff (a b : Point) (ha : a.Within (2 ^ 62)) (hb : b.Within (2 ^ 62)) :
    nextToEachOther a b = true ↔ adjacent8 a b := by
  obtain ⟨ha1, ha2⟩ := ha
  obtain ⟨hb1, hb2⟩ := hb
  rw [abs_lt] at ha1 ha2 hb1 hb2
  norm_num at ha1 ha2 hb1 hb2
  have wx : wrap64 (a.X - b.X) = a.X - b.X := wrap64_eq (by norm_num; omega) (by norm_num; omega)
  have wy : wrap64 (a.Y - b.Y) = a.Y - b.Y := wrap64_eq (by norm_num; omega) (by norm_num; omega)
  unfold nextToEachOther adjacent8
  rw [wx, wy]
  have gx := floatAbs_gt_one (a.X - b.X)
  have gy := floatAbs_gt_one (a.Y - b.Y)
  by_cases h1 : floatAbs (a.X - b.X) > 1
  · simp only [h1, if_true]
    have := gx.mp h1
    constructor
    · intro h; exact absurd h (by decide)
    · intro h; omega
  · by_cases h2 : floatAbs (a.Y - b.Y) > 1
    · simp only [h1, h2, if_true, if_false]
      have := gy.mp h2
      constructor
      · intro h; exact absurd h (by decide)
      · intro h; omega
    · simp only [h1, h2, if_false]
      have n1 : ¬ 1 < |a.X - b.X| := fun h => h1 (gx.mpr h)
      have n2 : ¬ 1 < |a.Y - b.Y| := fun h => h2 (gy.mpr h)
      constructor
      · intro _; exact ⟨not_lt.mp n1, not_lt.mp n2⟩
      · intro _; trivial

theorem adjacent8_comm (a b : Point) : adjacent8 a b ↔ adjacent8 b a := by
  unfold adjacent8
  rw [abs_sub_comm a.X b.X, abs_sub_comm a.Y b.Y]

theorem natAbs_sq_lt {d : Int} (h : |d| < 2 ^ 25) :
    d.natAbs < 2 ^ 53 ∧ d.natAbs * d.natAbs < 2 ^ 50 ∧
      ((d.natAbs * d.natAbs : Nat) : Int) = d * d := by
  rw [Int.abs_eq_natAbs] at h
  have h1 : d.natAbs < 2 ^ 25 := by exact_mod_cast h
  have h2 : d.natAbs ≤ 2 ^ 25 - 1 := by omega
  have h3 := Nat.mul_le_mul h2 h2
  refine ⟨lt_trans h1 (by norm_num), lt_of_le_of_lt h3 (by norm_num), ?_⟩
  rw [Nat.cast_mul, Int.natAbs_mul_self']

/-- For pixel coordinates below `2 ^ 24` nothing is rounded before the square
root: the distance of the code is the rounded root of the exact squared
distance, which is below `2 ^ 51`. -/
theorem dist_eq_floatSqrt (p cur : Point) (hp : p.Within (2 ^ 24)) (hc : cur.Within (2 ^ 24)) :
    dist p cur = floatSqrt (specSqDist p cur).toNat ∧ (specSqDist p cur).toNat < 2 ^ 51 := by
  obtain ⟨hp1, hp2⟩ := hp
  obtain ⟨hc1, hc2⟩ := hc
  have bx : |p.X - cur.X| < 2 ^ 25 := by
    rw [abs_lt] at hp1 hc1 ⊢
    norm_num at hp1 hc1 ⊢
    constructor <;> omega
  have by' : |p.Y - cur.Y| < 2 ^ 25 := by
    rw [abs_lt] at hp2 hc2 ⊢
    norm_num at hp2 hc2 ⊢
    constructor <;> omega
  have wx : wrap64 (p.X - cur.X) = p.X - cur.X := by
    rw [abs_lt] at bx
    norm_num at bx
    exact wrap64_eq (by norm_num; omega) (by norm_num; omega)
  have wy : wrap64 (p.Y - cur.Y) = p.Y - cur.Y := by
    rw [abs_lt] at by'
    norm_num at by'
    exact wrap64_eq (by norm_num; omega) (by norm_num; omega)
  obtain ⟨x1, x2, x3⟩ := natAbs_sq_lt bx
  obtain ⟨y1, y2, y3⟩ := natAbs_sq_lt by'
  have hsum : (p.X - cur.X).natAbs * (p.X - cur.X).natAbs
      + (p.Y - cur.Y).natAbs * (p.Y - cur.Y).natAbs < 2 ^ 51 := by
    norm_num at x2 y2 ⊢
    omega
  have hsq : (specSqDist p cur).toNat = (p.X - cur.X).natAbs * (p.X - cur.X).natAbs
      + (p.Y - cur.Y).natAbs * (p.Y - cur.Y).natAbs := by
    unfold specSqDist
    rw [← x3, ← y3, ← Nat.cast_add, Int.toNat_natCast]
  rw [hsq]
  refine ⟨?_, hsum⟩
  unfold dist
  simp only
  rw [wx, wy, floatAbs_small x1, floatAbs_small y1]
  unfold floatMul floatAdd
  rw [round53_small _ _ (lt_trans x2 (by norm_num)), round53_small _ _ (lt_trans y2 (by norm_num)),
    round53_small _ _ (lt_trans hsum (by norm_num))]

theorem specSqDist_nonneg (p q : Point) : 0 ≤ specSqDist p q := by
  unfold specSqDist
  exact add_nonneg (mul_self_nonneg _) (mul_self_nonneg _)

/-- For pixel coordinates below `2 ^ 24` the distances of the code are ordered
as the exact squared distances are. -/
theorem dist_lt_iff (p q cur : Point) (hp : p.Within (2 ^ 24)) (hq : q.Within (2 ^ 24))
    (hc : cur.Within (2 ^ 24)) :
    (dist p cur < dist q cur ↔ specSqDist p cur < specSqDist q cur) ∧
      (dist p cur = dist q cur ↔ specSqDist p cur = specSqDist q cur) := by
  obtain ⟨e1, b1⟩ := dist_eq_floatSqrt p cur hp hc
  obtain ⟨e2, b2⟩ := dist_eq_floatSqrt q cur hq hc
  have n1 := specSqDist_nonneg p cur
  have n2 := specSqDist_nonneg q cur
  rw [e1, e2, floatSqrt_lt_iff b1 b2, floatSqrt_eq_iff b1 b2]
  constructor <;> omega

/-! ## Strokes: non-emptiness, empty input and the single pixel -/

theorem slicePaths_length (path : List Point) :
    ∀ (jumps : List Nat) (last : Nat), (slicePaths path last jumps).length = jumps.length := by
  intro jumps
  induction jumps with
  | nil => intro last; rfl
  | cons j rest ih => intro last; simp [slicePaths, ih]

theorem slicePaths_nonempty (path : List Point) :
    ∀ (jumps : List Nat) (last : Nat), (last :: jumps).Pairwise (· < ·) →
      (∀ j ∈ jumps, j ≤ path.length) → ∀ s ∈ slicePaths path last jumps, s ≠ [] := by
  intro jumps
  induction jumps with
  | nil => intro last _ _ s hs; simp [slicePaths] at hs
  | cons j rest ih =>
    intro last hp hle s hs
    rw [List.pairwise_cons] at hp
    have hj : last < j := hp.1 j (List.mem_cons_self _ _)
    have hjl : j ≤ path.length := hle j (List.mem_cons_self _ _)
    simp only [slicePaths, List.mem_cons] at hs
    rcases hs with rfl | hs
    · intro hnil
      have := congrArg List.length hnil
      simp at this
      omega
    · exact ih j hp.2 (fun k hk => hle k (List.mem_cons_of_mem _ hk)) s hs

theorem buildLoop_path_extends (points : List Point) :
    ∀ (fuel : Nat) (s : PathState), s.path <+: (buildLoop points fuel s).path := by
  intro fuel
  induction fuel with
  | zero => intro s; exact List.prefix_refl _
  | succ fuel ih =>
    intro s
    unfold buildLoop
    split
    · split
      · exact List.prefix_refl _
      · rename_i k _
        exact (List.prefix_append s.path [points.getD k default]).trans
          (ih ⟨s.path ++ [points.getD k default], _, _, _⟩)
    · exact List.prefix_refl _

theorem buildLoop_path_pos (points : List Point) (fuel : Nat) :
    0 < (buildLoop points fuel (initState points)).path.length := by
  have h := (buildLoop_path_extends points fuel (initState points)).length_le
  have h0 : (initState points).path.length = 1 := rfl
  omega

/-- The boundaries used by the final loop of `BuildPaths`, the start `0`
included, are strictly increasing and end at the length of the path. -/
theorem boundaries_sorted {points : List Point} {s : PathState} (inv : PathInv points s)
    (hpos : 0 < s.path.length) :
    (0 :: (s.jumps ++ [s.path.length])).Pairwise (· < ·) ∧
      ∀ j ∈ s.jumps ++ [s.path.length], j ≤ s.path.length := by
  constructor
  · rw [List.pairwise_cons]
    constructor
    · intro a ha
      rcases List.mem_append.mp ha with h | h
      · exact (inv.inside a h).1
      · simp at h; omega
    · rw [List.pairwise_append]
      refine ⟨inv.sorted, by simp, ?_⟩
      intro a ha b hb
      simp at hb
      subst hb
      exact (inv.inside a ha).2
  · intro j hj
    rcases List.mem_append.mp hj with h | h
    · exact Nat.le_of_lt (inv.inside j h).2
    · simp at h; omega

theorem BuildPaths_eq (points : List Point) (h : points ≠ []) :
    BuildPaths points
      = slicePaths (buildLoop points points.length (initState points)).path 0
          ((buildLoop points points.length (initState points)).jumps
            ++ [(buildLoop points points.length (initState points)).path.length]) := by
  have hlen : ¬ points.length = 0 := by
    intro h0; exact h (List.length_eq_zero.mp h0)
  unfold BuildPaths
  rw [if_neg hlen]

/-- C11. Every stroke is non-empty: for a non-empty list of points each
stroke of `BuildPaths` holds at least one point, the boundaries recorded by the
traversal, the final one included, being strictly increasing and above 0. -/
theorem BuildPaths_strokes_nonempty (points : List Point) (h : points ≠ []) :
    (∀ stroke ∈ BuildPaths points, stroke ≠ []) ∧
      ((buildLoop points points.length (initState points)).jumps
          ++ [(buildLoop points points.length (initState points)).path.length]).Pairwise
        (· < ·) ∧
      ∀ j ∈ (buildLoop points points.length (initState points)).jumps
          ++ [(buildLoop points points.length (initState points)).path.length], 0 < j := by
  have inv := pathInv_buildLoop points points.length _ (pathInv_init points h)
  have hpos := buildLoop_path_pos points points.length
  obtain ⟨hs, hle⟩ := boundaries_sorted inv hpos
  refine ⟨?_, (List.pairwise_cons.mp hs).2, fun j hj => (List.pairwise_cons.mp hs).1 j hj⟩
  rw [BuildPaths_eq points h]
  exact slicePaths_nonempty _ _ 0 hs hle

/-- The non-emptiness theorem applied to the points `(0,0), (1,1), (10,10)`. -/
theorem BuildPaths_strokes_nonempty_witness :
    ([⟨0, 0⟩, ⟨1, 1⟩] : List Point) ∈ BuildPaths [⟨0, 0⟩, ⟨1, 1⟩, ⟨10, 10⟩] ∧
      ([⟨0, 0⟩, ⟨1, 1⟩] : List Point) ≠ [] :=
  ⟨by decide!,
    (BuildPaths_strokes_nonempty [⟨0, 0⟩, ⟨1, 1⟩, ⟨10, 10⟩] (by decide)).1
      [⟨0, 0⟩, ⟨1, 1⟩] (by decide!)⟩

theorem ExtractWhitePixels_of_dark (mask : Gray) (h : ∀ x y, mask.GrayAt x y ≤ 128) :
    ExtractWhitePixels mask = [] := by
  rw [ExtractWhitePixels_eq, List.map_eq_nil_iff, List.filter_eq_nil_iff]
  intro a _
  have := h a.1 a.2
  simp only [decide_eq_true_eq]
  omega

theorem GrayAt_of_empty (mask : Gray) (h : mask.Rect.Dx ≤ 0 ∨ mask.Rect.Dy ≤ 0) (x y : Int) :
    mask.GrayAt x y = 0 := by
  apply GrayAt_outside
  rw [contains_iff]
  unfold Rectangle.Dx Rectangle.Dy at h
  omega

/-- C12. Empty stroke set exactly on empty input: `BuildPaths` returns no
strokes if and only if the list of points is empty; in particular a mask
without a pixel above 128, such as an all-background mask or a zero-sized one,
gives no strokes through `ExtractWhitePixels` and `BuildPaths`. -/
theorem BuildPaths_empty_iff (points : List Point) (mask : Gray) :
    (BuildPaths points = [] ↔ points = []) ∧
      ((∀ x y, mask.GrayAt x y ≤ 128) → BuildPaths (ExtractWhitePixels mask) = []) ∧
      ((mask.Rect.Dx ≤ 0 ∨ mask.Rect.Dy ≤ 0) → BuildPaths (ExtractWhitePixels mask) = []) := by
  have hnil : BuildPaths [] = [] := by simp [BuildPaths]
  refine ⟨⟨fun he => ?_, fun he => by rw [he]; exact hnil⟩, fun hd => ?_, fun hz => ?_⟩
  · by_contra hne
    have hl := congrArg List.length he
    rw [BuildPaths_eq points hne, slicePaths_length] at hl
    simp at hl
  · rw [ExtractWhitePixels_of_dark mask hd]; exact hnil
  · rw [ExtractWhitePixels_of_dark mask (fun x y => by rw [GrayAt_of_empty mask hz]; omega)]
    exact hnil

/-- The empty-input theorem applied to the empty list, to the all-background
3x3 mask and to the zero-sized mask. -/
theorem BuildPaths_empty_iff_witness :
    BuildPaths [] = [] ∧
      BuildPaths (ExtractWhitePixels (NewGray ⟨0, 0, 3, 3⟩)) = [] ∧
      BuildPaths (ExtractWhitePixels (NewGray ⟨0, 0, 0, 0⟩)) = [] :=
  ⟨(BuildPaths_empty_iff [] (NewGray ⟨0, 0, 3, 3⟩)).1.mpr rfl,
    (BuildPaths_empty_iff [] (NewGray ⟨0, 0, 3, 3⟩)).2.1
      (fun x y => by rw [NewGray_GrayAt]; omega),
    (BuildPaths_empty_iff [] (NewGray ⟨0, 0, 0, 0⟩)).2.2 (Or.inl (by decide))⟩

theorem mem_ExtractWhitePixels (img : Gray) (p : Point) :
    p ∈ ExtractWhitePixels img ↔ 128 < img.GrayAt p.X p.Y := by
  rw [ExtractWhitePixels_eq]
  simp only [List.mem_map, List.mem_filter, decide_eq_true_eq]
  constructor
  · rintro ⟨xy, ⟨_, h2⟩, rfl⟩
    exact h2
  · intro h2
    exact ⟨(p.X, p.Y), ⟨contains_iff_mem.mp (contains_of_pos (by omega)), h2⟩, rfl⟩

theorem ExtractWhitePixels_nodup (img : Gray) : (ExtractWhitePixels img).Nodup := by
  have hsorted : (ExtractWhitePixels img).Pairwise rowMajorLt := by
    rw [ExtractWhitePixels_eq, List.pairwise_map]
    exact ((rowMajor_pairwise _ _ _ _).filter _).imp (fun h => h)
  refine hsorted.imp ?_
  intro a b h e
  subst e
  unfold rowMajorLt at h
  omega

theorem BuildPaths_singleton (p : Point) : BuildPaths [p] = [[p]] := by
  simp [BuildPaths, buildLoop, initState, slicePaths]

/-- C13. Single pixel: a mask with exactly one pixel above 128, at `p`, gives
exactly one stroke through `ExtractWhitePixels` and `BuildPaths`, the
one-element sequence `[p]`. -/
theorem single_pixel_stroke (mask : Gray) (p : Point)
    (h : ∀ x y, 128 < mask.GrayAt x y ↔ (x = p.X ∧ y = p.Y)) :
    BuildPaths (ExtractWhitePixels mask) = [[p]] := by
  have hl : ExtractWhitePixels mask = [p] := by
    apply List.perm_singleton.mp
    rw [List.perm_ext_iff_of_nodup (ExtractWhitePixels_nodup mask) (List.nodup_singleton p)]
    intro q
    rw [mem_ExtractWhitePixels, h, List.mem_singleton]
    constructor
    · rintro ⟨hx, hy⟩
      cases q; cases p
      simp only at hx hy
      rw [hx, hy]
    · rintro rfl
      exact ⟨rfl, rfl⟩
  rw [hl, BuildPaths_singleton]

/-- The single-pixel theorem applied to the 10x10 mask whose only foreground
pixel is `(4, 4)`. -/
theorem single_pixel_stroke_witness :
    BuildPaths (ExtractWhitePixels singlePixel) = [[⟨4, 4⟩]] :=
  single_pixel_stroke singlePixel ⟨4, 4⟩ (fun x y => by
    rw [singlePixel_GrayAt]
    by_cases hxy : x = 4 ∧ y = 4 <;> simp [hxy])

/-! ## Strokes: boundaries at the jumps -/

theorem buildLoop_succ (points : List Point) (fuel : Nat) (s : PathState) :
    buildLoop points (fuel + 1) s
      = if s.path.length < points.length then
          match nearest points s.visited s.current with
          | none => s
          | some bestIdx => buildLoop points fuel (stepState points s bestIdx)
        else s := rfl

theorem pathInv_stepState {points : List Point} {s : PathState} {k : Nat}
    (inv : PathInv points s) (hk : nearest points s.visited s.current = some k) :
    PathInv points (stepState points s k) :=
  pathInv_step inv hk

/-- Induction along the traversal loop of `BuildPaths`. -/
theorem buildLoop_induction (points : List Point) (P : PathState → Prop)
    (hstep : ∀ (s : PathState) (k : Nat), PathInv points s → P s →
      s.path.length < points.length → nearest points s.visited s.current = some k →
      P (stepState points s k)) :
    ∀ (fuel : Nat) (s : PathState), PathInv points s → P s → P (buildLoop points fuel s) := by
  intro fuel
  induction fuel with
  | zero => intro s _ h; exact h
  | succ fuel ih =>
    intro s inv h
    rw [buildLoop_succ]
    split
    · rename_i hlt
      split
      · exact h
      · rename_i k hk
        exact ih _ (pathInv_stepState inv hk) (hstep s k inv h hlt hk)
    · exact h

theorem stepState_path (points : List Point) (s : PathState) (k : Nat) :
    (stepState points s k).path = s.path ++ [points.getD k default] := rfl

/-- The jump test of the loop body compares the appended point with the last
point of the path so far; where no difference of coordinates wraps it is the
8-adjacency of the two. -/
theorem stepState_jumps (points : List Point) (s : PathState) (k : Nat) (q : List Point)
    (a : Point) (hq : s.path = q ++ [a]) (ha : a.Within (2 ^ 62))
    (hk : (points.getD k default).Within (2 ^ 62)) :
    (stepState points s k).jumps
      = if adjacent8 a (points.getD k default) then s.jumps
        else s.jumps ++ [s.path.length] := by
  have h1 : (s.path ++ [points.getD k default]).length > 1 := by
    rw [hq]; simp
  have h2 : (s.path ++ [points.getD k default]).getD s.path.length default
      = points.getD k default := by
    simp [List.getD_eq_getElem?_getD]
  have h3 : (s.path ++ [points.getD k default]).getD
      ((s.path ++ [points.getD k default]).length - 2) default = a := by
    have hlen : (q ++ [a] ++ [points.getD k default]).length - 2 = q.length := by simp
    rw [hq, hlen, List.append_assoc, List.getD_append_right _ _ _ _ (le_refl _)]
    simp
  have h4 : (s.path ++ [points.getD k default]).length - 1 = s.path.length := by simp
  unfold stepState
  simp only [h1, if_true, h4, h2, h3]
  by_cases hadj : adjacent8 a (points.getD k default)
  · have : nextToEachOther (points.getD k default) a = true :=
      (nextToEachOther_iff _ _ hk ha).mpr ((adjacent8_comm _ _).mp hadj)
    rw [this, if_pos hadj]
    rfl
  · have : nextToEachOther (points.getD k default) a = false := by
      cases h : nextToEachOther (points.getD k default) a
      · rfl
      · exact absurd ((adjacent8_comm _ _).mp ((nextToEachOther_iff _ _ hk ha).mp h)) hadj
    rw [this, if_neg hadj]
    rfl

theorem visitedPoints_subset :
    ∀ (ps : List Point) (bs : List Bool) (p : Point), p ∈ visitedPoints ps bs → p ∈ ps := by
  intro ps
  induction ps with
  | nil => intro bs p h; simp [visitedPoints] at h
  | cons a ps ih =>
    intro bs p h
    cases bs with
    | nil => simp [visitedPoints] at h
    | cons b bs =>
      cases b
      · simp only [visitedPoints, Bool.false_eq_true, if_false] at h
        exact List.mem_cons_of_mem _ (ih bs p h)
      · simp only [visitedPoints, if_true, List.mem_cons] at h
        rcases h with h | h
        · rw [h]; exact List.mem_cons_self _ _
        · exact List.mem_cons_of_mem _ (ih bs p h)

theorem mem_points_of_mem_path {points : List Point} {s : PathState} (inv : PathInv points s)
    {p : Point} (h : p ∈ s.path) : p ∈ points :=
  visitedPoints_subset _ _ _ (inv.perm.mem_iff.mp h)

theorem getD_mem_points {points : List Point} {k : Nat} (h : k < points.length) :
    points.getD k default ∈ points := by
  rw [List.getD_eq_getElem?_getD, List.getElem?_eq_getElem h]
  exact List.getElem_mem h

theorem slicePaths_snoc (path : List Point) :
    ∀ (jumps : List Nat) (last b : Nat),
      slicePaths path last (jumps ++ [b])
        = slicePaths path last jumps
            ++ [(path.take b).drop ((last :: jumps).getLast (List.cons_ne_nil _ _))] := by
  intro jumps
  induction jumps with
  | nil => intro last b; simp [slicePaths]
  | cons j rest ih =>
    intro last b
    show _ :: slicePaths path j (rest ++ [b]) = _
    rw [ih j b]
    rfl

theorem slicePaths_append_path (path extra : List Point) :
    ∀ (jumps : List Nat) (last : Nat), (∀ j ∈ jumps, j ≤ path.length) →
      slicePaths (path ++ extra) last jumps = slicePaths path last jumps := by
  intro jumps
  induction jumps with
  | nil => intro last _; rfl
  | cons j rest ih =>
    intro last h
    simp only [slicePaths]
    rw [ih j (fun k hk => h k (List.mem_cons_of_mem _ hk)),
      List.take_append_of_le_length (h j (List.mem_cons_self _ _))]

theorem getLast_boundaries_le {points : List Point} {s : PathState} (inv : PathInv points s) :
    (0 :: s.jumps).getLast (List.cons_ne_nil _ _) ≤ s.path.length := by
  rcases List.mem_cons.mp (List.getLast_mem (List.cons_ne_nil 0 s.jumps)) with h | h
  · rw [h]; exact Nat.zero_le _
  · exact Nat.le_of_lt (inv.inside _ h).2

/-- The strokes of a state: the slices at the jumps, then the rest of the
path. -/
theorem strokesOf_eq (s : PathState) :
    strokesOf s = slicePaths s.path 0 s.jumps
      ++ [s.path.drop ((0 :: s.jumps).getLast (List.cons_ne_nil _ _))] := by
  unfold strokesOf
  rw [slicePaths_snoc, List.take_length]

theorem strokesOf_step_adjacent {points : List Point} {s : PathState} (inv : PathInv points s)
    (k : Nat) (hj : (stepState points s k).jumps = s.jumps) :
    strokesOf (stepState points s k) = slicePaths s.path 0 s.jumps
      ++ [s.path.drop ((0 :: s.jumps).getLast (List.cons_ne_nil _ _))
            ++ [points.getD k default]] := by
  unfold strokesOf
  rw [hj, stepState_path, slicePaths_snoc, List.take_length,
    slicePaths_append_path _ _ _ _ (fun j hj => Nat.le_of_lt (inv.inside j hj).2),
    List.drop_append_of_le_length (getLast_boundaries_le inv)]

theorem strokesOf_step_jump {points : List Point} {s : PathState} (inv : PathInv points s)
    (k : Nat) (hj : (stepState points s k).jumps = s.jumps ++ [s.path.length]) :
    strokesOf (stepState points s k) = strokesOf s ++ [[points.getD k default]] := by
  have hle : ∀ j ∈ s.jumps ++ [s.path.length], j ≤ s.path.length := by
    intro j hj
    rcases List.mem_append.mp hj with h | h
    · exact Nat.le_of_lt (inv.inside j h).2
    · simp at h; omega
  unfold strokesOf
  rw [hj, stepState_path, slicePaths_snoc, List.take_length,
    slicePaths_append_path _ _ _ _ hle]
  congr 2
  have hl : (0 :: (s.jumps ++ [s.path.length])).getLast (List.cons_ne_nil _ _)
      = s.path.length := by
    rw [List.getLast_cons (by simp)]
    simp
  rw [hl, List.drop_left]

theorem countJumps_snoc :
    ∀ (q : List Point) (a p : Point),
      countJumps (q ++ [a] ++ [p]) = countJumps (q ++ [a]) + (if adjacent8 a p then 0 else 1) := by
  intro q
  induction q with
  | nil => intro a p; simp [countJumps]
  | cons c q ih =>
    intro a p
    cases q with
    | nil =>
      have := ih a p
      simp only [List.nil_append] at this
      simp only [List.cons_append, List.nil_append, countJumps] at this ⊢
      omega
    | cons d q =>
      have ih' : countJumps (d :: (q ++ [a] ++ [p]))
          = countJumps (d :: (q ++ [a])) + (if adjacent8 a p then 0 else 1) := ih a p
      have e1 : countJumps (c :: d :: q ++ [a] ++ [p])
          = (if adjacent8 c d then 0 else 1) + countJumps (d :: (q ++ [a] ++ [p])) := rfl
      have e2 : countJumps (c :: d :: q ++ [a])
          = (if adjacent8 c d then 0 else 1) + countJumps (d :: (q ++ [a])) := rfl
      rw [e1, e2, ih']
      omega

theorem strokesOK_init (p : Point) : StrokesOK [[p]] [p] :=
  ⟨by simp, by simp, by simp, by simp, by simp [countJumps]⟩

theorem strokesOK_extend {pre : List (List Point)} {l q : List Point} {a p : Point}
    (ok : StrokesOK (pre ++ [l ++ [a]]) (q ++ [a])) (hadj : adjacent8 a p) :
    StrokesOK (pre ++ [l ++ [a] ++ [p]]) (q ++ [a] ++ [p]) := by
  refine ⟨?_, ?_, ?_, ?_, ?_⟩
  · have := ok.flat
    simp only [List.flatten_append, List.flatten_cons, List.flatten_nil, List.append_nil]
      at this ⊢
    rw [← List.append_assoc, this]
  · intro s hs
    rcases List.mem_append.mp hs with h | h
    · exact ok.nonempty s (List.mem_append_left _ h)
    · simp at h; subst h; simp
  · intro s hs
    rcases List.mem_append.mp hs with h | h
    · exact ok.inside s (List.mem_append_left _ h)
    · simp only [List.mem_singleton] at h
      subst h
      rw [List.chain'_append]
      refine ⟨ok.inside _ (List.mem_append_right _ (List.mem_singleton_self _)), by simp, ?_⟩
      intro x hx y hy
      simp at hx hy
      subst hx; subst hy
      exact hadj
  · have hb := ok.between
    rw [List.chain'_append] at hb ⊢
    refine ⟨hb.1, by simp, ?_⟩
    intro x hx y hy
    simp only [List.head?_cons, Option.mem_def, Option.some.injEq] at hy
    subst hy
    have := hb.2.2 x hx (l ++ [a]) (by simp)
    intro a' ha' b hb'
    apply this a' ha' b
    cases l <;> simpa using hb'
  · have := ok.count
    rw [countJumps_snoc, if_pos hadj]
    simp only [List.length_append, List.length_singleton] at this ⊢
    omega

theorem strokesOK_jump {pre : List (List Point)} {l q : List Point} {a p : Point}
    (ok : StrokesOK (pre ++ [l ++ [a]]) (q ++ [a])) (hadj : ¬ adjacent8 a p) :
    StrokesOK (pre ++ [l ++ [a]] ++ [[p]]) (q ++ [a] ++ [p]) := by
  refine ⟨?_, ?_, ?_, ?_, ?_⟩
  · rw [List.flatten_append, ok.flat]
    simp
  · intro s hs
    rcases List.mem_append.mp hs with h | h
    · exact ok.nonempty s h
    · simp at h; subst h; simp
  · intro s hs
    rcases List.mem_append.mp hs with h | h
    · exact ok.inside s h
    · simp at h; subst h; simp
  · rw [List.chain'_append]
    refine ⟨ok.between, by simp, ?_⟩
    intro x hx y hy
    simp at hx hy
    subst hx; subst hy
    intro a' ha' b hb
    simp at ha' hb
    subst ha'; subst hb
    exact hadj
  · have := ok.count
    rw [countJumps_snoc, if_neg hadj]
    simp only [List.length_append, List.length_singleton] at this ⊢
    omega

theorem strokesOf_init (points : List Point) :
    strokesOf (initState points) = [[points.getD 0 default]] := by
  simp [strokesOf, initState, slicePaths]

/-- Every state of the traversal loop has a non-empty path that its strokes
cut at the jumps. -/
theorem strokesOK_buildLoop (points : List Point) (h : points ≠ [])
    (hb : ∀ p ∈ points, p.Within (2 ^ 62)) :
    ∀ fuel : Nat,
      (buildLoop points fuel (initState points)).path ≠ [] ∧
        StrokesOK (strokesOf (buildLoop points fuel (initState points)))
          (buildLoop points fuel (initState points)).path := by
  intro fuel
  refine buildLoop_induction points (fun s => s.path ≠ [] ∧ StrokesOK (strokesOf s) s.path)
    ?_ fuel (initState points) (pathInv_init points h) ?_
  · intro s k inv ⟨hne, ok⟩ _ hnear
    refine ⟨by rw [stepState_path]; simp, ?_⟩
    obtain ⟨q, a, hq⟩ : ∃ q a, s.path = q ++ [a] := by
      rcases List.eq_nil_or_concat s.path with h0 | ⟨q, a, h0⟩
      · exact absurd h0 hne
      · exact ⟨q, a, by rw [h0, List.concat_eq_append]⟩
    have hse := strokesOf_eq s
    have hlast : s.path.drop ((0 :: s.jumps).getLast (List.cons_ne_nil _ _)) ≠ [] := by
      apply ok.nonempty
      rw [hse]
      exact List.mem_append_right _ (List.mem_singleton_self _)
    obtain ⟨l, hl⟩ : ∃ l, s.path.drop ((0 :: s.jumps).getLast (List.cons_ne_nil _ _))
        = l ++ [a] := by
      generalize (0 :: s.jumps).getLast (List.cons_ne_nil _ _) = m at hlast
      have hm : m < s.path.length := by
        by_contra hge
        exact hlast (List.drop_eq_nil_of_le (by omega))
      rw [hq] at hm ⊢
      simp only [List.length_append, List.length_singleton] at hm
      exact ⟨q.drop m, List.drop_append_of_le_length (by omega)⟩
    have ok' : StrokesOK (slicePaths s.path 0 s.jumps ++ [l ++ [a]]) (q ++ [a]) := by
      rw [← hq, ← hl, ← hse]
      exact ok
    have hjumps := stepState_jumps points s k q a hq
      (hb a (mem_points_of_mem_path inv (by rw [hq]; simp)))
      (hb _ (getD_mem_points (nearest_some hnear).1))
    rw [stepState_path]
    by_cases hadj : adjacent8 a (points.getD k default)
    · rw [if_pos hadj] at hjumps
      rw [strokesOf_step_adjacent inv k hjumps, hl]
      have := strokesOK_extend ok' hadj
      rw [← hq] at this
      exact this
    · rw [if_neg hadj] at hjumps
      rw [strokesOf_step_jump inv k hjumps, hse, hl]
      have := strokesOK_jump ok' hadj
      rw [← hq] at this
      exact this
  · refine ⟨by simp [initState], ?_⟩
    rw [strokesOf_init]
    exact strokesOK_init _

theorem BuildPaths_strokesOf (points : List Point) (h : points ≠ []) :
    BuildPaths points = strokesOf (buildLoop points points.length (initState points)) :=
  BuildPaths_eq points h

/-- C14, as stated, fails twice.  On the empty list `BuildPaths` returns no
stroke, which is not one more than the number of jumps of the empty traversal.
On the points `(2^63 - 1, 0)` and `(-2^63, 0)` the difference of the `X`
coordinates wraps to 1, so the two points, which are not 8-adjacent, share one
stroke. -/
theorem BuildPaths_count_fails :
    (BuildPaths [] = [] ∧
      (BuildPaths []).length ≠ countJumps (BuildPaths []).flatten + 1) ∧
    (BuildPaths [⟨2 ^ 63 - 1, 0⟩, ⟨-2 ^ 63, 0⟩] = [[⟨2 ^ 63 - 1, 0⟩, ⟨-2 ^ 63, 0⟩]] ∧
      ¬ adjacent8 ⟨2 ^ 63 - 1, 0⟩ ⟨-2 ^ 63, 0⟩) := by
  refine ⟨by decide, by decide!, by decide!⟩

/-- C14, amended. Stroke boundaries sit exactly at the jumps: for a point
list whose coordinates are below `2 ^ 62` in absolute value, so that no
difference of coordinates wraps, every two consecutive points of a stroke of
`BuildPaths` are 8-adjacent, the last point of a stroke and the first point of
the next one are not, and for a non-empty list the number of strokes is one
more than the number of non-adjacent consecutive pairs of the traversal. -/
theorem BuildPaths_strokes_at_jumps (points : List Point)
    (hb : ∀ p ∈ points, p.Within (2 ^ 62)) :
    (∀ stroke ∈ BuildPaths points, stroke.Chain' adjacent8) ∧
      (BuildPaths points).Chain'
        (fun s t => ∀ a ∈ s.getLast?, ∀ b ∈ t.head?, ¬ adjacent8 a b) ∧
      (points ≠ [] →
        (BuildPaths points).length = countJumps (BuildPaths points).flatten + 1) := by
  by_cases h : points = []
  · subst h
    have hnil : BuildPaths [] = [] := by decide
    rw [hnil]
    simp
  · obtain ⟨_, ok⟩ := strokesOK_buildLoop points h hb points.length
    rw [← BuildPaths_strokesOf points h] at ok
    refine ⟨ok.inside, ok.between, fun _ => ?_⟩
    rw [ok.flat]
    exact ok.count

/-- The boundary theorem applied to the points `(0,0), (1,1), (10,10)`: two
strokes for one jump. -/
theorem BuildPaths_strokes_at_jumps_witness :
    (BuildPaths [⟨0, 0⟩, ⟨1, 1⟩, ⟨10, 10⟩]).length
      = countJumps (BuildPaths [⟨0, 0⟩, ⟨1, 1⟩, ⟨10, 10⟩]).flatten + 1 :=
  (BuildPaths_strokes_at_jumps [⟨0, 0⟩, ⟨1, 1⟩, ⟨10, 10⟩] (by decide!)).2.2 (by decide)

/-! ## The greedy order of the traversal -/

theorem drop_cons_getD {points : List Point} {i : Nat} {p : Point} {rest : List Point}
    (h : points.drop i = p :: rest) :
    points.getD i default = p ∧ points.drop (i + 1) = rest := by
  constructor
  · have h1 : (points.drop i)[0]? = some p := by rw [h]; simp
    rw [List.getElem?_drop] at h1
    simp only [Nat.add_zero] at h1
    simp [List.getD_eq_getElem?_getD, h1]
  · rw [← List.drop_drop 1 i points, h]
    rfl

theorem scanNearest_best (points : List Point) (cur : Point) (visited : List Bool) :
    ∀ (ps : List Point) (i : Nat) (best : Option (Nat × Nat)), points.drop i = ps →
      BestSoFar points cur visited i best →
      BestSoFar points cur visited (i + ps.length) (scanNearest cur visited ps i best) := by
  intro ps
  induction ps with
  | nil => intro i best _ hb; simpa [scanNearest] using hb
  | cons p ps ih =>
    intro i best hdrop hb
    obtain ⟨hp, hrest⟩ := drop_cons_getD hdrop
    have hlen : i + (p :: ps).length = (i + 1) + ps.length := by simp; omega
    rw [hlen]
    unfold scanNearest
    by_cases hv : visited.getD i false = true
    · rw [if_pos hv]
      apply ih (i + 1) best hrest
      cases best with
      | none =>
        intro j hj
        rcases Nat.lt_succ_iff_lt_or_eq.mp hj with h | h
        · exact hb j h
        · rw [h]; exact hv
      | some b =>
        obtain ⟨bi, bd⟩ := b
        obtain ⟨h1, h2, h3, h4⟩ := hb
        refine ⟨by omega, h2, h3, fun j hj hjv => ?_⟩
        rcases Nat.lt_succ_iff_lt_or_eq.mp hj with h | h
        · exact h4 j h hjv
        · rw [h, hv] at hjv; exact absurd hjv (by decide)
    · rw [if_neg hv]
      have hv' : visited.getD i false = false := by simpa using hv
      cases best with
      | none =>
        apply ih (i + 1) _ hrest
        refine ⟨by omega, hv', by rw [hp], fun j hj hjv => ?_⟩
        rcases Nat.lt_succ_iff_lt_or_eq.mp hj with h | h
        · rw [hb j h] at hjv; exact absurd hjv (by decide)
        · right; rw [h, hp]; exact ⟨rfl, le_refl _⟩
      | some b =>
        obtain ⟨bi, bd⟩ := b
        obtain ⟨h1, h2, h3, h4⟩ := hb
        simp only
        split
        · rename_i hlt
          apply ih (i + 1) _ hrest
          refine ⟨by omega, hv', by rw [hp], fun j hj hjv => ?_⟩
          rcases Nat.lt_succ_iff_lt_or_eq.mp hj with h | h
          · left
            rcases h4 j h hjv with h5 | ⟨h5, _⟩
            · exact lt_trans hlt h5
            · rw [← h5]; exact hlt
          · right; rw [h, hp]; exact ⟨rfl, le_refl _⟩
        · rename_i hge
          apply ih (i + 1) _ hrest
          refine ⟨by omega, h2, h3, fun j hj hjv => ?_⟩
          rcases Nat.lt_succ_iff_lt_or_eq.mp hj with h | h
          · exact h4 j h hjv
          · rw [h, hp]
            rcases lt_or_eq_of_le (not_lt.mp hge) with h5 | h5
            · exact Or.inl h5
            · exact Or.inr ⟨h5, by omega⟩

theorem getD_within {points : List Point} {B : Int} (hB : 0 < B)
    (hb : ∀ p ∈ points, p.Within B) (i : Nat) : (points.getD i default).Within B := by
  by_cases hi : i < points.length
  · exact hb _ (getD_mem_points hi)
  · rw [List.getD_eq_getElem?_getD, List.getElem?_eq_none (by omega)]
    exact ⟨by simpa using hB, by simpa using hB⟩

/-- The inner loop of `BuildPaths` finds the first unvisited index of least
computed distance; for pixel coordinates below `2 ^ 24` that is the greedy
choice by exact squared distance. -/
theorem nearest_isNearest {points : List Point} {visited : List Bool} {current k : Nat}
    {order : List Nat} (hb : ∀ p ∈ points, p.Within (2 ^ 24))
    (hk : nearest points visited current = some k)
    (hv : ∀ i, i < points.length → (visited.getD i false = true ↔ i ∈ order)) :
    IsNearestUnvisited points order current k := by
  unfold nearest at hk
  rw [Option.map_eq_some'] at hk
  obtain ⟨⟨k', d⟩, h1, h2⟩ := hk
  simp only at h2
  subst h2
  have hb' := scanNearest_best points (points.getD current default) visited points 0 none
    (by simp) (fun j hj => absurd hj (by omega))
  rw [h1] at hb'
  obtain ⟨b1, b2, b3, b4⟩ := hb'
  simp only [Nat.zero_add] at b1 b4
  refine ⟨b1, fun hmem => ?_, fun j hj hjo => ?_⟩
  · rw [(hv _ b1).mpr hmem] at b2
    exact absurd b2 (by decide)
  · have hjv : visited.getD j false = false := by
      cases hc : visited.getD j false
      · rfl
      · exact absurd ((hv j hj).mp hc) hjo
    have hpos : (0 : Int) < 2 ^ 24 := by norm_num
    obtain ⟨e1, e2⟩ := dist_lt_iff (points.getD k' default) (points.getD j default)
      (points.getD current default) (getD_within hpos hb _) (getD_within hpos hb _)
      (getD_within hpos hb _)
    rw [← e1, ← e2, ← b3]
    exact b4 j hj hjv

theorem greedyOrder_head {points : List Point} {order : List Nat}
    (h : GreedyOrder points order) : ∃ t, order = 0 :: t := by
  induction h with
  | start => exact ⟨[], rfl⟩
  | next order c k _ _ ih =>
    obtain ⟨t, ht⟩ := ih
    exact ⟨t ++ [k], by rw [ht]; rfl⟩

/-- Every state of the traversal loop has visited the indices of a greedy
order, in that order, and stands at its last index. -/
theorem greedy_buildLoop (points : List Point) (h : points ≠ [])
    (hb : ∀ p ∈ points, p.Within (2 ^ 24)) :
    ∀ fuel : Nat, ∃ order : List Nat, GreedyOrder points order ∧
      (buildLoop points fuel (initState points)).path
        = order.map (fun i => points.getD i default) ∧
      order.getLast? = some (buildLoop points fuel (initState points)).current ∧
      ∀ i, i < points.length →
        ((buildLoop points fuel (initState points)).visited.getD i false = true ↔ i ∈ order) := by
  intro fuel
  refine buildLoop_induction points
    (fun s => ∃ order : List Nat, GreedyOrder points order ∧
      s.path = order.map (fun i => points.getD i default) ∧
      order.getLast? = some s.current ∧
      ∀ i, i < points.length → (s.visited.getD i false = true ↔ i ∈ order))
    ?_ fuel (initState points) (pathInv_init points h) ?_
  · rintro s k inv ⟨order, hg, hpath, hlast, hvis⟩ _ hk
    have hnear := nearest_isNearest hb hk hvis
    obtain ⟨o, ho⟩ : ∃ o, order = o ++ [s.current] := by
      rcases List.eq_nil_or_concat order with h0 | ⟨o, c, h0⟩
      · rw [h0] at hlast; simp at hlast
      · rw [List.concat_eq_append] at h0
        rw [h0] at hlast
        simp at hlast
        exact ⟨o, by rw [h0, hlast]⟩
    refine ⟨order ++ [k], ?_, ?_, by simp [stepState], fun i hi => ?_⟩
    · rw [ho] at hnear hg ⊢
      exact GreedyOrder.next o s.current k hg hnear
    · rw [stepState_path, hpath]
      simp
    · have hset : (stepState points s k).visited = s.visited.set k true := rfl
      have hklt : k < s.visited.length := by rw [inv.flags]; exact hnear.1
      rw [hset, List.mem_append, List.mem_singleton, ← hvis i hi]
      simp only [List.getD_eq_getElem?_getD, List.getElem?_set]
      by_cases hik : k = i
      · subst hik
        simp [hklt]
      · have : ¬ i = k := fun e => hik e.symm
        simp [hik, this]
  · refine ⟨[0], GreedyOrder.start, by simp [initState], by simp [initState], fun i hi => ?_⟩
    simp only [initState, List.getD_eq_getElem?_getD, List.getElem?_set, List.mem_singleton]
    by_cases h0 : 0 = i
    · subst h0
      simp [hi]
    · have : ¬ i = 0 := fun e => h0 e.symm
      simp [h0, this, List.getElem?_replicate, hi]

/-- C15, as stated, fails: on the points `(0,0), (2^26,0), (0,1), (2^26,1)`
the traversal visits `(0,0), (0,1), (2^26,0), (2^26,1)`.  After `(0,1)` it
takes index 1, at squared distance `2^52 + 1`, although index 3 is unvisited at
squared distance `2^52`: the two roots round to the same `float64`, and the
lower index wins the tie. -/
theorem BuildPaths_greedy_fails :
    (BuildPaths [⟨0, 0⟩, ⟨2 ^ 26, 0⟩, ⟨0, 1⟩, ⟨2 ^ 26, 1⟩]).flatten
        = [0, 2, 1, 3].map
            (fun i => ([⟨0, 0⟩, ⟨2 ^ 26, 0⟩, ⟨0, 1⟩, ⟨2 ^ 26, 1⟩] : List Point).getD i default) ∧
      ¬ IsNearestUnvisited [⟨0, 0⟩, ⟨2 ^ 26, 0⟩, ⟨0, 1⟩, ⟨2 ^ 26, 1⟩] [0, 2] 2 1 ∧
      specSqDist ⟨2 ^ 26, 1⟩ ⟨0, 1⟩ < specSqDist ⟨2 ^ 26, 0⟩ ⟨0, 1⟩ ∧
      dist ⟨2 ^ 26, 1⟩ ⟨0, 1⟩ = dist ⟨2 ^ 26, 0⟩ ⟨0, 1⟩ := by
  refine ⟨by decide!, fun h => ?_, by decide!, by decide!⟩
  have h3 := h.2.2 3 (by decide) (by decide)
  revert h3
  decide!

/-- C15, amended. Greedy nearest-neighbour order: for a non-empty point list
whose coordinates are below `2 ^ 24` in absolute value the traversal starts
with `points[0]`, and every later element is the input point, among those not
yet visited, of minimal squared Euclidean distance to the element before it,
the one of smallest index on ties. -/
theorem BuildPaths_greedy (points : List Point) (h : points ≠ [])
    (hb : ∀ p ∈ points, p.Within (2 ^ 24)) :
    ∃ order : List Nat, GreedyOrder points order ∧ order.length = points.length ∧
      (BuildPaths points).flatten = order.map (fun i => points.getD i default) ∧
      (BuildPaths points).flatten.head? = some (points.getD 0 default) := by
  obtain ⟨order, hg, hpath, _, _⟩ := greedy_buildLoop points h hb points.length
  have hflat := BuildPaths_flatten points h
  have hlen := (buildLoop_path_perm points points.length _ (pathInv_init points h)
    (by omega)).length_eq
  refine ⟨order, hg, ?_, by rw [hflat, hpath], ?_⟩
  · rw [hpath, List.length_map] at hlen
    exact hlen
  · obtain ⟨t, ht⟩ := greedyOrder_head hg
    rw [hflat, hpath, ht]
    rfl

/-- The greedy-order theorem applied to the points `(0,0), (5,5), (1,1)`. -/
theorem BuildPaths_greedy_witness :
    ∃ order : List Nat, GreedyOrder [⟨0, 0⟩, ⟨5, 5⟩, ⟨1, 1⟩] order ∧ order.length = 3 ∧
      (BuildPaths [⟨0, 0⟩, ⟨5, 5⟩, ⟨1, 1⟩]).flatten
        = order.map (fun i => ([⟨0, 0⟩, ⟨5, 5⟩, ⟨1, 1⟩] : List Point).getD i default) ∧
      (BuildPaths [⟨0, 0⟩, ⟨5, 5⟩, ⟨1, 1⟩]).flatten.head? = some ⟨0, 0⟩ :=
  BuildPaths_greedy [⟨0, 0⟩, ⟨5, 5⟩, ⟨1, 1⟩] (by decide) (by decide!)

/-! ## Thinning: the removal condition, the frame and the endpoints -/

theorem removableBits_eq_specBits :
    ∀ even b1 b2 b3 b4 b5 b6 b7 b8 b9 : Bool,
      removableBits even b1 b2 b3 b4 b5 b6 b7 b8 b9 = specBits even b1 b2 b3 b4 b5 b6 b7 b8 b9 := by
  decide!

theorem removable_eq_bits (g : Gray) (step : Nat) (x y : Int) :
    removable g step x y
      = removableBits (decide (step = 0)) (decide (g.GrayAt x y > 0))
          (decide (g.GrayAt x (y - 1) > 0)) (decide (g.GrayAt (x + 1) (y - 1) > 0))
          (decide (g.GrayAt (x + 1) y > 0)) (decide (g.GrayAt (x + 1) (y + 1) > 0))
          (decide (g.GrayAt x (y + 1) > 0)) (decide (g.GrayAt (x - 1) (y + 1) > 0))
          (decide (g.GrayAt (x - 1) y > 0)) (decide (g.GrayAt (x - 1) (y - 1) > 0)) := by
  unfold removable removableBits
  by_cases h1 : g.GrayAt x y = 0
  · simp [h1]
  · have h1' : g.GrayAt x y > 0 := by omega
    by_cases hs : step = 0
    · simp only [h1, h1', hs, if_true, if_false, decide_True, Bool.not_true]
      rfl
    · simp only [h1, h1', hs, if_true, if_false, decide_True, decide_False, Bool.not_true]
      rfl

theorem neighbourRing_eq (g : Gray) (x y : Int) :
    neighbourRing g x y
      = [decide (g.GrayAt x (y - 1) > 0), decide (g.GrayAt (x + 1) (y - 1) > 0),
          decide (g.GrayAt (x + 1) y > 0), decide (g.GrayAt (x + 1) (y + 1) > 0),
          decide (g.GrayAt x (y + 1) > 0), decide (g.GrayAt (x - 1) (y + 1) > 0),
          decide (g.GrayAt (x - 1) y > 0), decide (g.GrayAt (x - 1) (y - 1) > 0)].map
        (fun b => if b = true then 1 else 0) := by
  simp [neighbourRing, sub_eq_add_neg]

theorem specRemovable_iff_bits (g : Gray) (step : Nat) (x y : Int) :
    SpecRemovable g step x y ↔
      specBits (decide (step = 0)) (decide (g.GrayAt x y > 0))
          (decide (g.GrayAt x (y - 1) > 0)) (decide (g.GrayAt (x + 1) (y - 1) > 0))
          (decide (g.GrayAt (x + 1) y > 0)) (decide (g.GrayAt (x + 1) (y + 1) > 0))
          (decide (g.GrayAt x (y + 1) > 0)) (decide (g.GrayAt (x - 1) (y + 1) > 0))
          (decide (g.GrayAt (x - 1) y > 0)) (decide (g.GrayAt (x - 1) (y - 1) > 0)) = true := by
  unfold SpecRemovable specBits
  rw [neighbourRing_eq]
  by_cases hs : step = 0
  · simp only [hs, if_true, decide_True, Bool.and_eq_true, decide_eq_true_eq]
    tauto
  · simp only [hs, if_false, decide_False, Bool.and_eq_true, decide_eq_true_eq]
    simp only [Bool.false_eq_true, if_false, Bool.and_eq_true, decide_eq_true_eq]
    tauto

/-- The scan of `GuoHallThinning` appends a pixel to `toRemove` exactly when
the removal condition of the specification holds for it. -/
theorem removable_iff (g : Gray) (step : Nat) (x y : Int) :
    removable g step x y = true ↔ SpecRemovable g step x y := by
  rw [removable_eq_bits, removableBits_eq_specBits, ← specRemovable_iff_bits]

theorem mem_scanRemovable (w h : Int) (step : Nat) (out : Gray) (x y : Int) :
    (x, y) ∈ scanRemovable w h step out ↔
      ((1 ≤ x ∧ x < w - 1) ∧ (1 ≤ y ∧ y < h - 1)) ∧ SpecRemovable out step x y := by
  rw [scanRemovable_eq, List.mem_filter, mem_rowMajor, removable_iff]

/-- For bounds starting at the origin the coordinates scanned by a
sub-iteration are the interior pixels, those whose 3x3 window lies inside the
image. -/
theorem scanned_iff_interior (r : Rectangle) (horigin : r.minX = 0 ∧ r.minY = 0) (x y : Int) :
    ((1 ≤ x ∧ x < r.maxX - 1) ∧ (1 ≤ y ∧ y < r.maxY - 1)) ↔
      ∀ dx dy : Int, -1 ≤ dx → dx ≤ 1 → -1 ≤ dy → dy ≤ 1 →
        r.contains (x + dx) (y + dy) = true := by
  constructor
  · rintro ⟨⟨h1, h2⟩, h3, h4⟩ dx dy _ _ _ _
    rw [contains_iff, horigin.1, horigin.2]
    omega
  · intro h
    have a := contains_iff.mp (h (-1) (-1) (by decide) (by decide) (by decide) (by decide))
    have b := contains_iff.mp (h 1 1 (by decide) (by decide) (by decide) (by decide))
    rw [horigin.1, horigin.2] at a b
    omega

/-- Simultaneous removal over the scan range: the grid after a sub-iteration
is the grid at its start with exactly those pixels of the scan range
`1..Max-2` cleared that are foreground and satisfy, on the grid at the start,
`2 ≤ n ≤ 6`, `A = 1` and the two zero products of the sub-iteration; every
other pixel is unchanged.  The scan range is the interior when the bounds
start at the origin. -/
theorem subIteration_simultaneous (out : Gray) (step : Nat) (x y : Int) (wf : out.WF) :
    ((((1 ≤ x ∧ x < out.Rect.maxX - 1) ∧ (1 ≤ y ∧ y < out.Rect.maxY - 1)) ∧
        SpecRemovable out step x y) →
      (subIteration out.Rect.maxX out.Rect.maxY step out).1.GrayAt x y = 0) ∧
    (¬ (((1 ≤ x ∧ x < out.Rect.maxX - 1) ∧ (1 ≤ y ∧ y < out.Rect.maxY - 1)) ∧
        SpecRemovable out step x y) →
      (subIteration out.Rect.maxX out.Rect.maxY step out).1.GrayAt x y = out.GrayAt x y) ∧
    ((out.Rect.minX = 0 ∧ out.Rect.minY = 0) →
      (((1 ≤ x ∧ x < out.Rect.maxX - 1) ∧ (1 ≤ y ∧ y < out.Rect.maxY - 1)) ↔
        ∀ dx dy : Int, -1 ≤ dx → dx ≤ 1 → -1 ≤ dy → dy ≤ 1 →
          out.Rect.contains (x + dx) (y + dy) = true)) := by
  have hs := (subIteration_spec out.Rect.maxX out.Rect.maxY step wf).2.2 x y
  refine ⟨fun hc => ?_, fun hc => ?_, fun ho => scanned_iff_interior out.Rect ho x y⟩
  · rw [hs, if_pos ((mem_scanRemovable _ _ _ _ _ _).mpr hc)]
  · rw [hs, if_neg (fun hm => hc ((mem_scanRemovable _ _ _ _ _ _).mp hm))]

/-- The simultaneous-removal theorem applied to the first sub-iteration on the
filled 8x8 square: the corner `(8, 8)` of the block is cleared, its centre
pixel `(4, 4)` is kept. -/
theorem subIteration_simultaneous_witness :
    (subIteration 10 10 0 filledSquare).1.GrayAt 8 8 = 0 ∧
      (subIteration 10 10 0 filledSquare).1.GrayAt 4 4 = filledSquare.GrayAt 4 4 :=
  ⟨(subIteration_simultaneous filledSquare 0 8 8 ⟨rfl, rfl⟩).1
      ⟨⟨⟨by decide, by decide⟩, by decide, by decide⟩,
        (removable_iff filledSquare 0 8 8).mp (by decide!)⟩,
    (subIteration_simultaneous filledSquare 0 4 4 ⟨rfl, rfl⟩).2.1
      (fun hc => absurd ((removable_iff filledSquare 0 4 4).mpr hc.2) (by decide!))⟩

/-- Induction along the pass loop of `GuoHallThinning`: a property of the
grid that every sub-iteration preserves holds for the result. -/
theorem thinLoop_induction (w h : Int) (P : Gray → Prop)
    (hstep : ∀ (g : Gray) (step : Nat), g.WF → P g → P (subIteration w h step g).1) :
    ∀ (fuel : Nat) (out : Gray) (v : Gray × Nat), out.WF → P out →
      thinLoop w h fuel out = some v → P v.1 := by
  intro fuel
  induction fuel with
  | zero => intro out v _ _ hrun; simp [thinLoop] at hrun
  | succ fuel ih =>
    intro out v wf hP hrun
    have wf0 := (subIteration_spec w h 0 wf).1
    have wf1 := (subIteration_spec w h 1 wf0).1
    have hP1 : P (thinPass w h out).1 := hstep _ 1 wf0 (hstep _ 0 wf hP)
    have hwf1 : (thinPass w h out).1.WF := wf1
    unfold thinLoop at hrun
    simp only at hrun
    split at hrun
    · rw [Option.map_eq_some'] at hrun
      obtain ⟨v', hv', e⟩ := hrun
      rw [← e]
      exact ih _ v' hwf1 hP1 hv'
    · simp only [Option.some.injEq] at hrun
      rw [← hrun]
      exact hP1

theorem GuoHallThinning_induction (img : Gray) (P : Gray → Prop)
    (h0 : P (binaryCopy img))
    (hstep : ∀ (g : Gray) (step : Nat), g.WF → P g →
      P (subIteration img.Rect.maxX img.Rect.maxY step g).1) :
    P (GuoHallThinning img) := by
  obtain ⟨n, _, _, hrun, _⟩ := GuoHallThinning_fuel img
  have h := hrun 0
  unfold GuoHallThinningFuel at h
  exact thinLoop_induction _ _ P hstep _ _ _ (binaryCopy_spec img).1 h0 h

/-- Every pixel of the skeleton is the pixel of the 0/255 copy of the input,
or a scanned foreground pixel that was cleared. -/
theorem GuoHallThinning_frame (img : Gray) (x y : Int) :
    (GuoHallThinning img).GrayAt x y = (if img.GrayAt x y > 0 then 255 else 0) ∨
      ((GuoHallThinning img).GrayAt x y = 0 ∧
        ((1 ≤ x ∧ x < img.Rect.maxX - 1) ∧ (1 ≤ y ∧ y < img.Rect.maxY - 1)) ∧
        0 < img.GrayAt x y) := by
  have hcopy := (binaryCopy_spec img).2.2 x y
  refine GuoHallThinning_induction img
    (fun g => g.GrayAt x y = (if img.GrayAt x y > 0 then 255 else 0) ∨
      (g.GrayAt x y = 0 ∧
        ((1 ≤ x ∧ x < img.Rect.maxX - 1) ∧ (1 ≤ y ∧ y < img.Rect.maxY - 1)) ∧
        0 < img.GrayAt x y)) (Or.inl hcopy) ?_
  intro g step wf hP
  rw [(subIteration_spec _ _ step wf).2.2 x y]
  by_cases hm : (x, y) ∈ scanRemovable img.Rect.maxX img.Rect.maxY step g
  · rw [if_pos hm]
    have hpos := mem_scanRemovable_pos hm
    have hscan := ((mem_scanRemovable _ _ _ _ _ _).mp hm).1
    rcases hP with h | ⟨h, _, _⟩
    · right
      refine ⟨rfl, hscan, ?_⟩
      by_contra hz
      rw [h, if_neg hz] at hpos
      exact absurd hpos (by decide)
    · rw [h] at hpos
      exact absurd hpos (by decide)
  · rw [if_neg hm]
    exact hP

/-- C16. Thinning only erodes interior foreground: when the bounds start at
the origin, every background pixel of the input is background in the result
of `GuoHallThinning`, every pixel of the one-pixel border is foreground in the
result exactly when it is foreground in the input, and a pixel whose state
changes is an interior foreground pixel that became background. -/
theorem GuoHallThinning_erodes_interior (img : Gray)
    (horigin : img.Rect.minX = 0 ∧ img.Rect.minY = 0) :
    (∀ x y, img.GrayAt x y = 0 → (GuoHallThinning img).GrayAt x y = 0) ∧
    (∀ x y, (x = img.Rect.minX ∨ x = img.Rect.maxX - 1 ∨
        y = img.Rect.minY ∨ y = img.Rect.maxY - 1) →
      (0 < (GuoHallThinning img).GrayAt x y ↔ 0 < img.GrayAt x y)) ∧
    (∀ x y, ¬ (0 < (GuoHallThinning img).GrayAt x y ↔ 0 < img.GrayAt x y) →
      0 < img.GrayAt x y ∧ (GuoHallThinning img).GrayAt x y = 0 ∧
        (img.Rect.minX < x ∧ x < img.Rect.maxX - 1) ∧
        (img.Rect.minY < y ∧ y < img.Rect.maxY - 1)) := by
  refine ⟨fun x y hz => ?_, fun x y hb => ?_, fun x y hne => ?_⟩
  · rcases GuoHallThinning_frame img x y with h | ⟨h, _, _⟩
    · rw [h, hz]; rfl
    · exact h
  · rcases GuoHallThinning_frame img x y with h | ⟨_, ⟨⟨h1, h2⟩, h3, h4⟩, _⟩
    · rw [h]
      by_cases hp : img.GrayAt x y > 0 <;> simp [hp]
    · rw [horigin.1, horigin.2] at hb
      omega
  · rcases GuoHallThinning_frame img x y with h | ⟨h, ⟨⟨h1, h2⟩, h3, h4⟩, hp⟩
    · exfalso
      apply hne
      rw [h]
      by_cases hp : img.GrayAt x y > 0 <;> simp [hp]
    · rw [horigin.1, horigin.2]
      exact ⟨hp, h, ⟨by omega, h2⟩, by omega, h4⟩

/-- The erosion theorem applied to the filled 8x8 square: the background
corner `(0, 0)` stays background. -/
theorem GuoHallThinning_erodes_interior_witness :
    (GuoHallThinning filledSquare).GrayAt 0 0 = 0 :=
  (GuoHallThinning_erodes_interior filledSquare ⟨rfl, rfl⟩).1 0 0 (by decide)

theorem sum_map_ite_eq_length_filter {α : Type} (p : α → Bool) :
    ∀ l : List α, (l.map (fun a => if p a = true then 1 else 0)).sum = (l.filter p).length := by
  intro l
  induction l with
  | nil => rfl
  | cons a l ih =>
    cases h : p a <;> simp [List.filter_cons, h, ih]
    omega

theorem neighbourRing_sum (g : Gray) (x y : Int) :
    (neighbourRing g x y).sum = fgNeighbours g x y := by
  unfold neighbourRing fgNeighbours
  rw [← sum_map_ite_eq_length_filter]
  congr 1
  apply List.map_congr_left
  intro d _
  by_cases h : 0 < g.GrayAt (x + d.1) (y + d.2) <;> simp [h]

theorem fgNeighbours_mono {g g' : Gray} (h : ∀ x y, 0 < g'.GrayAt x y → 0 < g.GrayAt x y)
    (x y : Int) : fgNeighbours g' x y ≤ fgNeighbours g x y := by
  unfold fgNeighbours
  apply filter_length_le
  intro d _ hd
  simp only [decide_eq_true_eq] at hd ⊢
  exact h _ _ hd

/-- A foreground pixel with fewer than two foreground neighbours is not
removed by a sub-iteration, and keeps fewer than two foreground neighbours. -/
theorem subIteration_keeps_endpoint (w h : Int) (step : Nat) {g : Gray} (wf : g.WF)
    (x y : Int) (hP : 0 < g.GrayAt x y ∧ fgNeighbours g x y ≤ 1) :
    0 < (subIteration w h step g).1.GrayAt x y ∧
      fgNeighbours (subIteration w h step g).1 x y ≤ 1 := by
  have hs := (subIteration_spec w h step wf).2.2
  constructor
  · rw [hs x y, if_neg]
    · exact hP.1
    · intro hm
      have h2 := ((mem_scanRemovable _ _ _ _ _ _).mp hm).2.2.1
      rw [neighbourRing_sum] at h2
      omega
  · refine le_trans (fgNeighbours_mono (fun u v huv => ?_) x y) hP.2
    rw [hs u v] at huv
    split at huv
    · exact absurd huv (by decide)
    · exact huv

/-- C18, as stated, fails: the 4x4 mask with a 2x2 block of foreground has
four foreground pixels and its skeleton has none. -/
theorem GuoHallThinning_erases_smallSquare :
    0 < smallSquare.GrayAt 1 1 ∧ foreground smallSquare = 4 ∧
      GuoHallThinning smallSquare = NewGray ⟨0, 0, 4, 4⟩ ∧
      ∀ x y, (GuoHallThinning smallSquare).GrayAt x y = 0 := by
  have h : GuoHallThinning smallSquare = NewGray ⟨0, 0, 4, 4⟩ := by decide!
  refine ⟨by decide, by decide!, h, fun x y => ?_⟩
  rw [h, NewGray_GrayAt]

/-- C18, amended. Thinning never removes a foreground pixel that has fewer
than two foreground 8-neighbours in the input: a mask that contains such a
pixel (an isolated pixel or the end of a line) has a skeleton with at least
one foreground pixel. -/
theorem GuoHallThinning_keeps_endpoint (img : Gray) (x y : Int)
    (hfg : 0 < img.GrayAt x y) (hn : fgNeighbours img x y ≤ 1) :
    0 < (GuoHallThinning img).GrayAt x y ∧
      ∃ u v, 0 < (GuoHallThinning img).GrayAt u v := by
  have hcopy := (binaryCopy_spec img).2.2
  have hres : 0 < (GuoHallThinning img).GrayAt x y ∧
      fgNeighbours (GuoHallThinning img) x y ≤ 1 := by
    refine GuoHallThinning_induction img
      (fun g => 0 < g.GrayAt x y ∧ fgNeighbours g x y ≤ 1) ⟨?_, ?_⟩
      (fun g step wf hP => subIteration_keeps_endpoint _ _ step wf x y hP)
    · rw [hcopy x y, if_pos hfg]
      decide
    · refine le_trans (fgNeighbours_mono (fun u v huv => ?_) x y) hn
      rw [hcopy u v] at huv
      by_contra hz
      rw [if_neg hz] at huv
      exact absurd huv (by decide)
  exact ⟨hres.1, x, y, hres.1⟩

/-- The endpoint theorem applied to the left end `(1, 1)` of a horizontal
line of three pixels. -/
theorem GuoHallThinning_keeps_endpoint_witness :
    0 < (GuoHallThinning lineMask).GrayAt 1 1 :=
  (GuoHallThinning_keeps_endpoint lineMask 1 1 (by decide) (by decide)).1

/-! ## The main programs: data flow and streaming -/

/-- C19, on the code. In threshold mode the mask that `main` hands to
`GuoHallThinning` is the nil variable of line 45, not the result of
`Threshold`, which only the artifact receives; in every other mode it is the
result of `EdgeDetection`. -/
theorem mainBinarize_handed (bwMode : String) (inputImage : Image) (threshold : Nat)
    (invert : Bool) :
    (mainBinarize "threshold" inputImage threshold invert).handed = none ∧
      (mainBinarize "threshold" inputImage threshold invert).saved
        = Threshold inputImage (threshold % 256) invert ∧
      (bwMode ≠ "threshold" →
        (mainBinarize bwMode inputImage threshold invert).handed
          = some (EdgeDetection inputImage (threshold : Int))) := by
  refine ⟨rfl, rfl, fun h => ?_⟩
  unfold mainBinarize
  simp only [h, if_false]

/-- The invariant of the streaming loop. -/
theorem streamStep_inv {α : Type} (bufferSize : Int) (replies : Nat → Reply) (queue : List α)
    (s : StreamState α)
    (h : s.currentBuffer ≤ bufferSize ∧ s.currentBuffer = s.written.length - s.acked ∧
      s.written ++ s.queue = queue) :
    (streamStep bufferSize replies s).currentBuffer ≤ bufferSize ∧
      (streamStep bufferSize replies s).currentBuffer
        = (streamStep bufferSize replies s).written.length
          - (streamStep bufferSize replies s).acked ∧
      (streamStep bufferSize replies s).written ++ (streamStep bufferSize replies s).queue
        = queue := by
  obtain ⟨h1, h2, h3⟩ := h
  unfold streamStep
  split
  · exact ⟨h1, h2, h3⟩
  · rename_i ins rest hq
    split
    · rename_i hlt
      refine ⟨by simp only; omega, ?_, ?_⟩
      · simp only [List.length_append, List.length_singleton, Nat.cast_add, Nat.cast_one]
        omega
      · simp only
        rw [hq] at h3
        rw [List.append_assoc]
        exact h3
    · split
      · refine ⟨by simp only; omega, ?_, h3⟩
        simp only [Nat.cast_add, Nat.cast_one]
        omega
      · exact ⟨h1, h2, h3⟩

theorem streamRun_inv {α : Type} (bufferSize : Int) (replies : Nat → Reply) (queue : List α) :
    ∀ (n : Nat) (s : StreamState α),
      (s.currentBuffer ≤ bufferSize ∧ s.currentBuffer = s.written.length - s.acked ∧
        s.written ++ s.queue = queue) →
      (streamRun bufferSize replies n s).currentBuffer ≤ bufferSize ∧
        (streamRun bufferSize replies n s).currentBuffer
          = (streamRun bufferSize replies n s).written.length
            - (streamRun bufferSize replies n s).acked ∧
        (streamRun bufferSize replies n s).written ++ (streamRun bufferSize replies n s).queue
          = queue := by
  intro n
  induction n with
  | zero => intro s h; exact h
  | succ n ih =>
    intro s h
    exact ih _ (streamStep_inv bufferSize replies queue s h)

/-- C20. Bounded in-flight instructions: for a buffer size that is not
negative and every sequence of replies, after any number of iterations of the
streaming loop `currentBuffer`, the number of instructions written less the
number of `Consumed` replies, is at most the buffer size, and the instructions
written so far followed by the rest of the queue are the file: they are
written in file order, each at most once. -/
theorem stream_bounded {α : Type} (bufferSize : Int) (hsize : 0 ≤ bufferSize)
    (replies : Nat → Reply) (queue : List α) (n : Nat) :
    (streamRun bufferSize replies n (streamInit queue)).currentBuffer ≤ bufferSize ∧
      (streamRun bufferSize replies n (streamInit queue)).currentBuffer
        = (streamRun bufferSize replies n (streamInit queue)).written.length
          - (streamRun bufferSize replies n (streamInit queue)).acked ∧
      (streamRun bufferSize replies n (streamInit queue)).written
          ++ (streamRun bufferSize replies n (streamInit queue)).queue
        = queue :=
  streamRun_inv bufferSize replies queue n (streamInit queue)
    ⟨hsize, by simp [streamInit], by simp [streamInit]⟩

/-- The streaming theorem applied to three instructions, buffer size 2 and a
device that answers every read with `Consumed`, after five iterations. -/
theorem stream_bounded_witness :
    (streamRun 2 (fun _ => Reply.Consumed) 5 (streamInit [10, 20, 30])).currentBuffer ≤ 2 ∧
      (streamRun 2 (fun _ => Reply.Consumed) 5 (streamInit [10, 20, 30])).written
        = [10, 20, 30] :=
  ⟨(stream_bounded 2 (by decide) (fun _ => Reply.Consumed) [10, 20, 30] 5).1, by decide⟩

end Picasso
